import Mathlib

/-!
Shallow embedding of the TSBot retrieval core (Vietnamese admissions QA bot)
and proofs about the claims of its specification.

Conventions used throughout:
* Python strings are Lean `String`; character-level work happens on `s.data`.
* Python floats are modelled as rationals (`ℚ`); overflow/rounding is not part
  of any claim settled here.
* Python `None` is `Option.none`; a Python dict with optional keys becomes a
  structure whose fields are `Option` values.
* External services (LLM, embedding service, Qdrant, Postgres) are modelled as
  explicit parameters (oracles) of the functions that call them.
-/

namespace TSBot

/-! ## Python string primitives -/

/-- Characters treated as whitespace by Python `str.strip()` (ASCII subset;
the SQL strings of this system are built from ASCII and Vietnamese text, and
no claim hinges on exotic Unicode whitespace). -/
def isPyWs (c : Char) : Bool :=
  c = ' ' || c = '\t' || c = '\n' || c = '\r' || c = '\x0b' || c = '\x0c'

/-- Python `str.strip()` (both ends). -/
def pyStrip (s : String) : String :=
  ⟨((s.data.dropWhile isPyWs).reverse.dropWhile isPyWs).reverse⟩

/-- Python `str.upper()`, character-wise (exact on ASCII, which covers every
keyword compared by the SQL validator). -/
def pyUpper (s : String) : String :=
  ⟨s.data.map Char.toUpper⟩

/-- Python `str.lower()`, character-wise (exact on ASCII). -/
def pyLower (s : String) : String :=
  ⟨s.data.map Char.toLower⟩

/-- Substring test on character lists: `needle` occurs contiguously in `hay`
(Python `needle in hay`). -/
def listHasInfix (hay needle : List Char) : Bool :=
  hay.tails.any (fun t => needle.isPrefixOf t)

/-- Python `needle in hay` for strings. -/
def strHasInfix (hay needle : String) : Bool :=
  listHasInfix hay.data needle.data

/-- Python `s.startswith(pre)`. -/
def pyStartsWith (s pre : String) : Bool :=
  pre.data.isPrefixOf s.data

/-- Python `s.endswith(suf)`. -/
def pyEndsWith (s suf : String) : Bool :=
  suf.data.reverse.isPrefixOf s.data.reverse

/-- Python `s.rstrip(";")`: drop every trailing semicolon. -/
def rstripSemis (s : String) : String :=
  ⟨(s.data.reverse.dropWhile (fun c => c = ';')).reverse⟩

/-! ## C8 — configuration surface (`src/core/config.py`, class `Settings`)

The `Settings` pydantic model is transcribed field by field.  Float defaults
become rationals.  `Path` defaults are kept as their literal strings, and the
`reranker_weights` dict as an association list. -/

structure Settings where
  app_name : String := "TSBot"
  app_env : String := "development"
  debug : Bool := true
  log_level : String := "INFO"
  api_host : String := "0.0.0.0"
  api_port : Int := 8000
  api_workers : Int := 1
  cors_origins : List String := ["http://localhost:3000", "http://localhost:8080"]
  postgres_host : String := "localhost"
  postgres_port : Int := 5432
  postgres_user : String := "tsbot"
  postgres_password : String := "tsbot_secret_password"
  postgres_db : String := "tsbot_db"
  postgres_pool_size : Int := 10
  postgres_max_overflow : Int := 20
  qdrant_host : String := "localhost"
  qdrant_port : Int := 6333
  qdrant_grpc_port : Int := 6334
  qdrant_legal_collection : String := "legal_documents"
  qdrant_sql_examples_collection : String := "sql_examples"
  qdrant_intents_collection : String := "intents"
  ollama_base_url : String := "http://localhost:11434"
  ollama_main_model : String := "qwen2.5:7b-instruct"
  ollama_main_temperature : ℚ := 1/10
  ollama_main_top_p : ℚ := 9/10
  ollama_grader_model : String := "qwen2.5:1.5b"
  ollama_grader_temperature : ℚ := 0
  embedding_model : String := "AITeamVN/Vietnamese_Embedding"
  embedding_fallback_model : String := "nomic-embed-text"
  embedding_dimension : Int := 1024
  rag_chunk_size : Int := 512
  rag_chunk_overlap : Int := 50
  rag_top_k : Int := 5
  rag_relevance_threshold : ℚ := 7/10
  use_hybrid_search : Bool := true
  use_semantic_cache : Bool := true
  use_query_analysis : Bool := true
  use_query_expansion : Bool := true
  use_smart_retrieval : Bool := true
  cache_similarity_threshold : ℚ := 92/100
  cache_ttl_hours : Int := 24
  reranker_model : String := "namdp-ptit/ViRanker"
  reranker_top_k : Int := 3
  reranker_weights : List (String × ℚ) :=
    [("cross_encoder", 55/100), ("retrieval", 35/100), ("metadata", 10/100)]
  sql_max_retries : Int := 3
  sql_few_shot_examples : Int := 5
  router_similarity_threshold : ℚ := 85/100
  router_faq_collection : String := "intents"
  secret_key : String := "your-super-secret-key-change-in-production"
  algorithm : String := "HS256"
  access_token_expire_minutes : Int := 30
  admin_username : String := "admin"
  admin_password : String := "admin123"
  data_dir : String := "./data"
  documents_dir : String := "./data/documents"
  sql_examples_dir : String := "./data/sql_examples"
  intents_dir : String := "./data/intents"

/-- The field names declared on the `Settings` class, in source order. -/
def Settings.fieldNames : List String :=
  ["app_name", "app_env", "debug", "log_level",
   "api_host", "api_port", "api_workers", "cors_origins",
   "postgres_host", "postgres_port", "postgres_user", "postgres_password",
   "postgres_db", "postgres_pool_size", "postgres_max_overflow",
   "qdrant_host", "qdrant_port", "qdrant_grpc_port",
   "qdrant_legal_collection", "qdrant_sql_examples_collection",
   "qdrant_intents_collection",
   "ollama_base_url", "ollama_main_model", "ollama_main_temperature",
   "ollama_main_top_p", "ollama_grader_model", "ollama_grader_temperature",
   "embedding_model", "embedding_fallback_model", "embedding_dimension",
   "rag_chunk_size", "rag_chunk_overlap", "rag_top_k",
   "rag_relevance_threshold",
   "use_hybrid_search", "use_semantic_cache", "use_query_analysis",
   "use_query_expansion", "use_smart_retrieval",
   "cache_similarity_threshold", "cache_ttl_hours",
   "reranker_model", "reranker_top_k", "reranker_weights",
   "sql_max_retries", "sql_few_shot_examples",
   "router_similarity_threshold", "router_faq_collection",
   "secret_key", "algorithm", "access_token_expire_minutes",
   "admin_username", "admin_password",
   "data_dir", "documents_dir", "sql_examples_dir", "intents_dir"]

/-- The settings record with every default (a plain `Settings()` instance). -/
def defaultSettings : Settings := {}

/-! ## C7 — Supervisor top-level error handling (`src/agents/supervisor.py`,
`SupervisorAgent.process`)

The LangGraph run `self.graph.ainvoke(initial_state, config)` is the only
statement inside the `try` that can raise; it is modelled as an
`Except String (FinalState σ)` outcome supplied by the caller (`String` being
the `str(e)` rendering of the exception).  `σ` is the type of one entry of the
`sources` list, which `process` merely forwards.  In the structures below a
field of type `Option (Option τ)` models a dict key: `none` = key absent,
`some v` = key present with value `v` (`v = none` being Python `None`). -/

structure FinalState (σ : Type) where
  response : Option (Option String)
  intent : Option (Option String)
  sources : Option (List σ)
  error : Option (Option String)

structure ProcessResult (σ : Type) where
  query : String
  response : Option String
  intent : Option String
  sources : List σ
  error : Option String

/-- Fallback used by `final_state.get("response", ...)` when the key is absent. -/
def processFallbackResponse : String :=
  "Xin lỗi, tôi không thể xử lý yêu cầu này."

/-- The user-safe apology substituted when the workflow raises. -/
def supervisorApology : String :=
  "Xin lỗi, đã xảy ra lỗi khi xử lý yêu cầu của bạn. Vui lòng thử lại."

/-- `SupervisorAgent.process`: run the graph, catch any exception.  In the
exception branch the returned dict has no `intent`/`sources` keys, modelled
here as `none` / `[]`. -/
def supervisorProcess {σ : Type} (query : String)
    (outcome : Except String (FinalState σ)) : ProcessResult σ :=
  match outcome with
  | Except.ok s =>
      { query := query
        response := (match s.response with
                     | none => some processFallbackResponse
                     | some v => v)
        intent := s.intent.join
        sources := s.sources.getD []
        error := s.error.join }
  | Except.error e =>
      { query := query
        response := some supervisorApology
        intent := none
        sources := []
        error := some e }

/-! ## C1 / C9 — SQL engine (`src/agents/sql_agent.py`)

`_extract_sql`, `_fix_filter_values`, `_validate_sql` and the LIMIT rewrite of
`_execute_sql` are embedded below.  The grader-LLM call inside `_validate_sql`
and the LLM generation feeding `_extract_sql` are external; the grader outcome
is a parameter. -/

/-- Outcome of the grader-LLM JSON validation call inside `_validate_sql`:
either the call raised, or it returned a JSON object whose `valid` key is read
with default `False` and whose `error` key may be absent. -/
inductive GraderOutcome where
  | raised : GraderOutcome
  | ok : Bool → Option String → GraderOutcome

/-- The `dangerous_keywords` list of `_validate_sql`, in source order. -/
def dangerousKeywords : List String :=
  ["DROP", "DELETE", "UPDATE", "INSERT", "ALTER",
   "TRUNCATE", "CREATE", "GRANT", "REVOKE", "--", "/*"]

/-- `SQLAgent._validate_sql`: substring scan for dangerous keywords over the
upper-cased SQL, then the `SELECT` prefix check, then the grader call whose
failure (exception) is a soft pass. -/
def validateSql (grader : GraderOutcome) (sql : String) : Bool × Option String :=
  match dangerousKeywords.find? (fun kw => strHasInfix (pyUpper sql) kw) with
  | some kw => (false, some ("Dangerous keyword detected: " ++ kw))
  | none =>
    if ¬ (pyStartsWith (pyStrip (pyUpper sql)) "SELECT") then
      (false, some "Query must start with SELECT")
    else
      match grader with
      | GraderOutcome.raised => (true, none)
      | GraderOutcome.ok valid err =>
          if ¬ valid then (false, some (err.getD "Validation failed"))
          else (true, none)

/-- The LIMIT rewrite of `SQLAgent._execute_sql`: the SQL string actually run
is the input unless it lacks a (case-insensitive) `LIMIT` substring, in which
case all trailing semicolons are stripped and `" LIMIT 50;"` appended. -/
def executeSqlQuery (sql : String) : String :=
  if strHasInfix (pyUpper sql) "LIMIT" then sql
  else rstripSemis sql ++ " LIMIT 50;"

/-- Index-free position of the first occurrence of `needle` in `l`
(`None` if absent), used to model `re` scanning. -/
def findSubIdx (needle : List Char) : List Char → Option Nat
  | [] => if needle.isEmpty then some 0 else none
  | c :: rest =>
    if needle.isPrefixOf (c :: rest) then some 0
    else (findSubIdx needle rest).map (· + 1)

/-- One pass of `re.sub(r"<think>.*?</think>", "", response, flags=re.DOTALL)`:
remove each leftmost `<think>…</think>` span (lazy body: up to the first
subsequent `</think>`), scanning left to right.  `fuel` bounds the recursion;
callers pass `l.length + 1`, which is ample since every removal consumes at
least 15 characters. -/
def removeThinkFuel : Nat → List Char → List Char
  | 0, l => l
  | Nat.succ fuel, l =>
    match findSubIdx "<think>".data l with
    | none => l
    | some i =>
      let rest := l.drop (i + 7)
      match findSubIdx "</think>".data rest with
      | none => l
      | some j => l.take i ++ removeThinkFuel fuel (rest.drop (j + 8))

/-- `re.sub` of the think-tag pattern on a string. -/
def removeThink (s : String) : String :=
  ⟨removeThinkFuel (s.data.length + 1) s.data⟩

/-- The markdown-fence stripping of `_extract_sql` (a leading ` ```sql ` or
` ``` ` and a trailing ` ``` `), in source order. -/
def stripFences (s : String) : String :=
  let s1 := if pyStartsWith s "```sql" then (⟨s.data.drop 6⟩ : String) else s
  let s2 := if pyStartsWith s1 "```" then (⟨s1.data.drop 3⟩ : String) else s1
  if pyEndsWith s2 "```" then (⟨s2.data.take (s2.data.length - 3)⟩ : String)
  else s2

/-- Does the alternation `(?:;|$)` of the `_extract_sql` regex match at offset
`p` of `rest`?  (`$` without `re.MULTILINE` matches at the end of the string
or just before a terminal newline.) -/
def selectEndCond (rest : List Char) (p : Nat) : Bool :=
  (decide (p < rest.length) && decide (rest.getD p ' ' = ';'))
  || decide (p = rest.length)
  || (decide (p + 1 = rest.length) && decide (rest.getD p ' ' = '\n'))

/-- Attempt the regex `(SELECT\s+.+?)(?:;|$)` (IGNORECASE | DOTALL) at
absolute offset `i` of `l`; on success return the text of capture group 1.
`\s+` is greedy (maximal run `w`), `.+?` lazy (minimal `t ≥ 1` whose end
position satisfies `(?:;|$)`); when the whole remainder is whitespace the
engine backtracks `\s+` by one character so `.+?` can consume it. -/
def tryMatchSelectAt (l : List Char) (i : Nat) : Option (List Char) :=
  if ((l.drop i).take 6).map Char.toLower = "select".data then
    let rest := l.drop (i + 6)
    let w := (rest.takeWhile isPyWs).length
    if w = 0 then none
    else if w < rest.length then
      match (List.range (rest.length - w)).find?
          (fun t1 => selectEndCond rest (w + t1 + 1)) with
      | some t1 => some ((l.drop i).take (6 + w + t1 + 1))
      | none => none
    else if 2 ≤ w then some ((l.drop i).take (6 + w))
    else none
  else none

/-- `re.search` of the SELECT pattern: leftmost successful attempt wins. -/
def searchSelect (l : List Char) : Option (List Char) :=
  (List.range (l.length + 1)).findSome? (tryMatchSelectAt l)

/-- The pre-processing of `_extract_sql` before the regex search: strip, strip
think tags, strip again, strip markdown fences. -/
def preExtract (response : String) : String :=
  stripFences (pyStrip (removeThink (pyStrip response)))

/-- `SQLAgent._extract_sql`: on a regex hit, the stripped capture group plus
`";"`; otherwise the (pre-processed) response stripped. -/
def extractSql (response : String) : String :=
  let pre := preExtract response
  match searchSelect pre.data with
  | some g => pyStrip ⟨g⟩ ++ ";"
  | none => pyStrip pre

/-- The negated character class `[^']` of the filter pattern. -/
def notQuote (c : Char) : Bool := !(c = '\'')

/-- Attempt the pattern `field\s*=\s*'[^']*'` (IGNORECASE, with `field` a
lowercase literal such as `gioi_tinh`) at the head of `l`; on success return
the suffix after the match.  Every quantifier here is deterministic: the
greedy runs are bounded by the mandatory `=` / quote characters. -/
def matchFilterPre (field : List Char) (l : List Char) : Option (List Char) :=
  if (l.take field.length).map Char.toLower = field then
    let r1 := (l.drop field.length).dropWhile isPyWs
    if r1.head? = some '=' then
      let r3 := r1.tail.dropWhile isPyWs
      if r3.head? = some '\'' then
        let r5 := r3.tail.dropWhile notQuote
        if r5.head? = some '\'' then some r5.tail else none
      else none
    else none
  else none

/-- `re.sub(pattern, repl, l)` for the filter pattern: scan left to right,
replacing each leftmost non-overlapping match.  `fuel` bounds the recursion;
callers pass `l.length + 1` (every match consumes at least 12 characters). -/
def subFilterFuel (field repl : List Char) : Nat → List Char → List Char
  | 0, l => l
  | Nat.succ _, [] => []
  | Nat.succ fuel, c :: rest =>
    match matchFilterPre field (c :: rest) with
    | some after => repl ++ subFilterFuel field repl fuel after
    | none => c :: subFilterFuel field repl fuel rest

/-- `re.sub` for one filter field over a string. -/
def subFilter (field repl : List Char) (l : List Char) : List Char :=
  subFilterFuel field repl (l.length + 1) l

/-- Python truthiness of an optional string (`None` and `""` are falsy). -/
def truthyOpt : Option String → Bool
  | none => false
  | some v => ¬ v.isEmpty

/-- The replacement text `f"{field} = '{value}'"`. -/
def filterRepl (field : List Char) (value : String) : List Char :=
  field ++ (" = '".data ++ value.data ++ ['\''])

/-- `SQLAgent._fix_filter_values`: rewrite `gioi_tinh = '…'` literals to the
extracted gender (when truthy), then `khu_vuc = '…'` literals to the
extracted region (when truthy). -/
def fixFilterValues (sql : String) (gioiTinh khuVuc : Option String) : String :=
  let s1 :=
    if truthyOpt gioiTinh then
      ⟨subFilter "gioi_tinh".data (filterRepl "gioi_tinh".data (gioiTinh.getD "")) sql.data⟩
    else sql
  if truthyOpt khuVuc then
    ⟨subFilter "khu_vuc".data (filterRepl "khu_vuc".data (khuVuc.getD "")) s1.data⟩
  else s1

/-- Does any position of `l` start a match of the filter pattern? -/
def hasFilterMatch (field : List Char) : List Char → Bool
  | [] => (matchFilterPre field []).isSome
  | c :: rest => (matchFilterPre field (c :: rest)).isSome || hasFilterMatch field rest

/-- `SubDecomp field repl l out` holds when `out` is obtained from `l` by
replacing some pattern-matching substrings with `repl` and copying every other
character unchanged — the frame property of `re.sub` for the filter pattern. -/
inductive SubDecomp (field repl : List Char) : List Char → List Char → Prop where
  | nil : SubDecomp field repl [] []
  | keep : ∀ (c : Char) (l out : List Char),
      SubDecomp field repl l out → SubDecomp field repl (c :: l) (c :: out)
  | rw : ∀ (m l out : List Char), m ≠ [] →
      (∀ z, matchFilterPre field (m ++ z) = some z) →
      SubDecomp field repl l out → SubDecomp field repl (m ++ l) (repl ++ out)

/-! ## C6 — deterministic markdown table
(`src/agents/sql_agent.py`, `SQLAgent._build_markdown_table`) -/

/-- One result row of `view_tra_cuu_diem` as consumed by
`_build_markdown_table` (`none` = SQL NULL; numeric cells are modelled by
their `str()` rendering, which is all the function uses). -/
structure SqlRow where
  nam : Option String := none
  ten_truong : Option String := none
  ten_nganh : Option String := none
  ma_khoi : Option String := none
  gioi_tinh : Option String := none
  khu_vuc : Option String := none
  diem_chuan : Option String := none
  chi_tieu : Option String := none
  ghi_chu : Option String := none
deriving DecidableEq

/-- `GIOI_TINH_MAP`. -/
def gioiTinhMap : List (String × String) := [("nam", "Nam"), ("nu", "Nữ")]

/-- `KHU_VUC_MAP`. -/
def khuVucMap : List (String × String) :=
  [("mien_bac", "Miền Bắc"), ("mien_nam", "Miền Nam")]

/-- `_val(value)` without a map: `str(value).strip()`, `None` → `""`. -/
def pyVal (v : Option String) : String :=
  match v with
  | none => ""
  | some s => pyStrip s

/-- `_val(value, val_map)`: strip, then look the lowercase value up in the
map, falling back to the stripped value. -/
def pyValMap (v : Option String) (m : List (String × String)) : String :=
  match v with
  | none => ""
  | some s =>
    let t := pyStrip s
    if t = "" then ""
    else
      match m.lookup (pyLower t) with
      | some mapped => mapped
      | none => t

/-- The 8-component `group_key` tuple. -/
structure GroupKey where
  nam : String
  ten_truong : String
  ten_nganh : String
  gioi_tinh : String
  khu_vuc : String
  diem_chuan : String
  chi_tieu : String
  ghi_chu : String
deriving DecidableEq

def groupKeyOf (r : SqlRow) : GroupKey :=
  { nam := pyVal r.nam
    ten_truong := pyVal r.ten_truong
    ten_nganh := pyVal r.ten_nganh
    gioi_tinh := pyValMap r.gioi_tinh gioiTinhMap
    khu_vuc := pyValMap r.khu_vuc khuVucMap
    diem_chuan := pyVal r.diem_chuan
    chi_tieu := pyVal r.chi_tieu
    ghi_chu := pyVal r.ghi_chu }

/-- One iteration of the grouping loop: ensure the row's key is present
(new keys are appended at the end, matching `OrderedDict` insertion order),
then append the row's `ma_khoi` when it is truthy and not yet recorded. -/
def addRowToGroups (groups : List (GroupKey × List String)) (r : SqlRow) :
    List (GroupKey × List String) :=
  let key := groupKeyOf r
  let khoi := pyVal r.ma_khoi
  let groups1 := if groups.any (fun p => p.1 = key) then groups
    else groups ++ [(key, [])]
  groups1.map (fun p =>
    if p.1 = key then
      (p.1, if khoi ≠ "" ∧ ¬ (khoi ∈ p.2) then p.2 ++ [khoi] else p.2)
    else p)

/-- The `groups` OrderedDict after the grouping loop. -/
def buildGroups (rows : List SqlRow) : List (GroupKey × List String) :=
  rows.foldl addRowToGroups []

/-- Python string `<=`: lexicographic comparison by code point, a prefix
comparing less than any extension. -/
def listLexLe : List Char → List Char → Bool
  | [], _ => true
  | _ :: _, [] => false
  | a :: as, b :: bs =>
    if a < b then true
    else if b < a then false
    else listLexLe as bs

def strLeB (a b : String) : Bool := listLexLe a.data b.data

/-- Python `sorted` on a list of strings. -/
def pySortStrings (l : List String) : List String :=
  List.insertionSort (fun a b => strLeB a b = true) l

/-- One merged output row (all cells already rendered as strings). -/
structure MergedRow where
  nam : String
  ten_truong : String
  ten_nganh : String
  ma_khoi : String
  gioi_tinh : String
  khu_vuc : String
  diem_chuan : String
  chi_tieu : String
  ghi_chu : String
deriving DecidableEq

/-- `", ".join(sorted(khoi_list))` plus the key fields. -/
def mergedOfGroup (p : GroupKey × List String) : MergedRow :=
  { nam := p.1.nam
    ten_truong := p.1.ten_truong
    ten_nganh := p.1.ten_nganh
    ma_khoi := String.intercalate ", " (pySortStrings p.2)
    gioi_tinh := p.1.gioi_tinh
    khu_vuc := p.1.khu_vuc
    diem_chuan := p.1.diem_chuan
    chi_tieu := p.1.chi_tieu
    ghi_chu := p.1.ghi_chu }

/-- `row.get(key, "")` over a merged row. -/
def colValue (r : MergedRow) (key : String) : String :=
  if key = "nam" then r.nam
  else if key = "ten_truong" then r.ten_truong
  else if key = "ten_nganh" then r.ten_nganh
  else if key = "ma_khoi" then r.ma_khoi
  else if key = "gioi_tinh" then r.gioi_tinh
  else if key = "khu_vuc" then r.khu_vuc
  else if key = "diem_chuan" then r.diem_chuan
  else if key = "chi_tieu" then r.chi_tieu
  else if key = "ghi_chu" then r.ghi_chu
  else ""

/-- `COLUMN_CONFIG`. -/
def columnConfig : List (String × String) :=
  [("nam", "Năm"), ("ten_truong", "Trường"), ("ten_nganh", "Ngành"),
   ("ma_khoi", "Khối"), ("gioi_tinh", "Giới tính"), ("khu_vuc", "Khu vực"),
   ("diem_chuan", "Điểm chuẩn"), ("chi_tieu", "Chỉ tiêu"),
   ("ghi_chu", "Ghi chú")]

/-- `active_cols`: keep a column iff some merged row has a truthy cell. -/
def activeCols (merged : List MergedRow) : List (String × String) :=
  columnConfig.filter (fun p => merged.any (fun r => ¬ colValue r p.1 = ""))

/-- `SQLAgent._build_markdown_table`. -/
def buildMarkdownTable (rows : List SqlRow) : String :=
  let merged := (buildGroups rows).map mergedOfGroup
  let cols := activeCols merged
  if cols = [] then ""
  else
    String.intercalate "\n"
      (("| " ++ String.intercalate " | " (cols.map Prod.snd) ++ " |")
        :: ("| " ++ String.intercalate " | " (cols.map (fun _ => "---")) ++ " |")
        :: merged.map (fun r =>
            "| " ++ String.intercalate " | "
              (cols.map (fun p => colValue r p.1)) ++ " |"))

/-- Two grouping outcomes are equivalent when they list the same keys in the
same order and record the same set of `ma_khoi` values per key. -/
def GroupsEquiv (g1 g2 : List (GroupKey × List String)) : Prop :=
  List.Forall₂ (fun p q => p.1 = q.1 ∧ ∀ x, x ∈ p.2 ↔ x ∈ q.2) g1 g2

/-! ## C5 — reciprocal rank fusion
(`src/agents/components/bm25.py`, `reciprocal_rank_fusion`)

`rrf_scores` is a Python dict, modelled as an insertion-ordered association
list with duplicate-free keys.  Scores are rationals.  `k` is a parameter
(its source default reads `settings.rrf_k`, which the `Settings` class does
not declare — the claims fix `k = 60`). -/

/-- `rrf_scores.setdefault(doc_idx, 0.0); rrf_scores[doc_idx] += inc`:
update the entry in place if the key exists, else append it at the end
(dict insertion order). -/
def rrfAdd (scores : List (Nat × ℚ)) (docIdx : Nat) (inc : ℚ) :
    List (Nat × ℚ) :=
  if scores.any (fun p => p.1 = docIdx) then
    scores.map (fun p => if p.1 = docIdx then (p.1, p.2 + inc) else p)
  else scores ++ [(docIdx, inc)]

/-- The inner loop `for rank, (doc_idx, _score) in enumerate(ranked_list)`. -/
def rrfAccumList (k : Nat) (scores : List (Nat × ℚ))
    (ranked : List (Nat × ℚ)) : List (Nat × ℚ) :=
  ranked.enum.foldl
    (fun sc e => rrfAdd sc e.2.1 (1 / ((k : ℚ) + e.1 + 1))) scores

/-- The `rrf_scores` dict after both loops. -/
def rrfScoresOf (k : Nat) (rankedLists : List (List (Nat × ℚ))) :
    List (Nat × ℚ) :=
  rankedLists.foldl (rrfAccumList k) []

/-- `sorted(rrf_scores.items(), key=lambda x: x[1], reverse=True)`: a stable
descending sort by score (CPython sort is stable; ties keep dict insertion
order). -/
def reciprocalRankFusion (k : Nat) (rankedLists : List (List (Nat × ℚ))) :
    List (Nat × ℚ) :=
  List.insertionSort (fun a b : Nat × ℚ => b.2 ≤ a.2) (rrfScoresOf k rankedLists)

/-- Every `(doc_idx, 1/(k+rank+1))` contribution, in iteration order. -/
def rrfContribs (k : Nat) (rankedLists : List (List (Nat × ℚ))) :
    List (Nat × ℚ) :=
  (rankedLists.map (fun ranked =>
    ranked.enum.map (fun e => (e.2.1, 1 / ((k : ℚ) + e.1 + 1))))).flatten

/-- Total value recorded for key `i` in an association list. -/
def getVal : List (Nat × ℚ) → Nat → ℚ
  | [], _ => 0
  | p :: rest, i => (if p.1 = i then p.2 else 0) + getVal rest i

/-- The RRF score the claim assigns to index `i`: the sum over every
occurrence of `i` in a ranked list of `1/(k + rank + 1)` (one occurrence per
list when no list repeats an index, which is the claim's setting). -/
def rrfSpecScore (k : Nat) (rankedLists : List (List (Nat × ℚ)))
    (i : Nat) : ℚ :=
  getVal (rrfContribs k rankedLists) i

def firstOccAppend (ks : List Nat) (d : Nat) : List Nat :=
  if d ∈ ks then ks else ks ++ [d]

/-- Distinct doc indices of a contribution list in first-occurrence order. -/
def firstOccKeys (cs : List (Nat × ℚ)) : List Nat :=
  cs.foldl (fun ks c => firstOccAppend ks c.1) []

/-! ## C3 — semantic cache (`src/agents/components/cache.py`)

Embedding vectors are rational; `np.dot` on unit-row matrices is the scalar
product.  Timestamps are integer seconds (`datetime.now()` at call time);
`timedelta(hours=ttl)` is `ttl * 3600` seconds.  The response object is an
opaque type `ρ`. -/

structure CacheEntry (ρ : Type) where
  query_text : String
  query_embedding : List ℚ
  response : ρ
  timestamp : Int
deriving DecidableEq

/-- The hit dictionary returned by `SemanticCache.lookup`. -/
structure CacheHit (ρ : Type) where
  response : ρ
  similarity : ℚ
  original_query : String
deriving DecidableEq

/-- Scalar product (`np.dot` of the row/column reshapes). -/
def dotQ (a b : List ℚ) : ℚ := (List.zipWith (fun x y => x * y) a b).sum

/-- `(current_time - entry.timestamp) > timedelta(hours=ttl_hours)`. -/
def cacheExpired {ρ : Type} (ttlHours now : Int) (e : CacheEntry ρ) : Bool :=
  decide (now - e.timestamp > ttlHours * 3600)

/-- The best-match scan of `lookup`: skip expired entries, track the entry
with the strictly largest similarity seen so far (`max_sim` starts at `-1`,
so the first fresh entry with similarity `> -1` becomes the candidate). -/
def lookupScan {ρ : Type} (qv : List ℚ) (ttlHours now : Int) :
    List (CacheEntry ρ) → Option (CacheEntry ρ) × ℚ →
    Option (CacheEntry ρ) × ℚ
  | [], best => best
  | e :: rest, (bm, ms) =>
    if cacheExpired ttlHours now e then lookupScan qv ttlHours now rest (bm, ms)
    else
      let sim := dotQ e.query_embedding qv
      if sim > ms then lookupScan qv ttlHours now rest (some e, sim)
      else lookupScan qv ttlHours now rest (bm, ms)

/-- `SemanticCache.cleanup`: drop expired entries. -/
def cacheCleanup {ρ : Type} (ttlHours now : Int)
    (cache : List (CacheEntry ρ)) : List (CacheEntry ρ) :=
  cache.filter (fun e => ¬ cacheExpired ttlHours now e)

namespace SemanticCache

/-- `SemanticCache.lookup` (its returned value; the `len > 1000` sweep only
mutates the internal list and never affects the value returned).  The
`threshold or self._threshold` idiom makes an explicit `0.0` fall back to the
default as well. -/
def lookup {ρ : Type} (cache : List (CacheEntry ρ)) (qv : List ℚ)
    (threshold : Option ℚ) (ttlHours : Int) (defaultThreshold : ℚ)
    (now : Int) : Option (CacheHit ρ) :=
  if cache.isEmpty then none
  else
    let effThreshold := match threshold with
      | some t => if t = 0 then defaultThreshold else t
      | none => defaultThreshold
    match lookupScan qv ttlHours now cache (none, -1) with
    | (some e, maxSim) =>
      if maxSim ≥ effThreshold then
        some ⟨e.response, maxSim, e.query_text⟩
      else none
    | (none, _) => none

/-- `SemanticCache.add`: evict the oldest entry (head) when the cache holds
200 or more entries, then append the new entry. -/
def add {ρ : Type} (cache : List (CacheEntry ρ)) (queryText : String)
    (qv : List ℚ) (response : ρ) (now : Int) : List (CacheEntry ρ) :=
  (if cache.length ≥ 200 then cache.drop 1 else cache)
    ++ [⟨queryText, qv, response, now⟩]

end SemanticCache

/-! ## C2 / C4 — legal chunks, the chunk map and hierarchy
(`src/agents/components/vector_store.py`, `src/agents/components/hierarchy.py`)

A chunk dict is flattened into a record: `id` is the top-level key, the other
optional fields live under `metadata` (the Python key `section` is spelled
`section_` here because `section` is a Lean keyword).  `none` models an
absent key; Python truthiness of a value is `truthyOpt`. -/

structure Chunk where
  id : Option String := none
  chunk_id : Option String := none
  parent_id : Option String := none
  children_ids : Option (List String) := none
  content : String := ""
  chapter : Option String := none
  chapter_number : Option String := none
  section_ : Option String := none
  section_number : Option String := none
  article : Option String := none
  article_number : Option String := none
  clause : Option String := none
  clause_number : Option String := none
  point : Option String := none
  point_number : Option String := none
deriving DecidableEq

/-- Python `a or b` on two optional strings. -/
def pyOr (a b : Option String) : Option String :=
  if truthyOpt a then a else b

/-- `chunk.get("id") or chunk.get("metadata", {}).get("chunk_id")`. -/
def chunkKeyId (c : Chunk) : Option String := pyOr c.id c.chunk_id

/-- The chunk map is a Python dict: an insertion-ordered association list
with unique keys; assignment to an existing key overwrites in place. -/
def insertChunk (m : List (String × Chunk)) (key : String) (c : Chunk) :
    List (String × Chunk) :=
  if m.any (fun p => p.1 = key) then
    m.map (fun p => if p.1 = key then (key, c) else p)
  else m ++ [(key, c)]

/-- `dict.get` on the association list. -/
def lookupA (m : List (String × Chunk)) (k : String) : Option Chunk :=
  (m.find? (fun p => p.1 = k)).map Prod.snd

/-- First loop of `_build_chunk_map`: index every chunk with a truthy id. -/
def chunkMapPass1 (chunks : List Chunk) : List (String × Chunk) :=
  chunks.foldl
    (fun m c =>
      if truthyOpt (chunkKeyId c) then
        insertChunk m ((chunkKeyId c).getD "") c
      else m)
    []

/-- `parent["children_ids"]` handling: create the list when the key is
absent, then append `childId` unless already present. -/
def updateChildren (c : Chunk) (childId : String) : Chunk :=
  let cur := c.children_ids.getD []
  if childId ∈ cur then { c with children_ids := some cur }
  else { c with children_ids := some (cur ++ [childId]) }

def appendChild (m : List (String × Chunk)) (parentKey childId : String) :
    List (String × Chunk) :=
  m.map (fun p =>
    if p.1 = parentKey then (p.1, updateChildren p.2 childId) else p)

/-- One iteration of the second loop of `_build_chunk_map`: link the chunk
at `key` to its parent when its `parent_id` is truthy and resolves in the
map.  No validation of any kind is performed: dangling `parent_id`s are
silently skipped and cycles are accepted. -/
def pass2step (m : List (String × Chunk)) (key : String) :
    List (String × Chunk) :=
  match lookupA m key with
  | none => m
  | some c =>
    match c.parent_id with
    | none => m
    | some pid =>
      if ¬ pid.isEmpty ∧ m.any (fun p => p.1 = pid) then
        appendChild m pid key
      else m

/-- Second loop of `_build_chunk_map`, iterating the dict keys in insertion
order (appends to `children_ids` never change the key set). -/
def chunkMapPass2 (m0 : List (String × Chunk)) : List (String × Chunk) :=
  (m0.map Prod.fst).foldl pass2step m0

/-- `_build_chunk_map`. -/
def buildChunkMap (chunks : List Chunk) : List (String × Chunk) :=
  chunkMapPass2 (chunkMapPass1 chunks)

/-- A chunk record whose `children_ids` entries are duplicate-free and all
resolve against the key list `K0`. -/
def ChildOk (K0 : List String) (c : Chunk) : Prop :=
  (c.children_ids.getD []).Nodup ∧ ∀ cid ∈ c.children_ids.getD [], cid ∈ K0

/-! ## C2 — section depth, the ancestor walk and smart merging
(`src/agents/components/hierarchy.py`, `_get_section_type`, `_get_depth`,
`check_hierarchy_overlap`, `merge_chunks_smart`) -/

/-- `re.match(r"^[a-zđ]\)", content)` on the lowered content: the first
character is a lowercase latin letter or `đ` and the second is `)`. -/
def pointHead (s : String) : Bool :=
  match s.data with
  | c1 :: c2 :: _ => decide ((('a' ≤ c1 ∧ c1 ≤ 'z') ∨ c1 = 'đ') ∧ c2 = ')')
  | _ => false

/-- `_get_section_type`. -/
def getSectionType (c : Chunk) : String :=
  if truthyOpt c.point || truthyOpt c.point_number || pointHead (pyLower c.content)
    then "diem"
  else if truthyOpt c.clause || truthyOpt c.clause_number then "khoan"
  else if truthyOpt c.article || truthyOpt c.article_number then "dieu"
  else if truthyOpt c.section_ || truthyOpt c.section_number then "muc"
  else if truthyOpt c.chapter || truthyOpt c.chapter_number then "chuong"
  else "unknown"

/-- `_get_depth`: `depth_map.get(section_type, 0)` over the map
`{chuong: 1, muc: 2, dieu: 3, khoan: 4, diem: 5, unknown: 0}`. -/
def getDepth (c : Chunk) : Nat :=
  if getSectionType c = "chuong" then 1
  else if getSectionType c = "muc" then 2
  else if getSectionType c = "dieu" then 3
  else if getSectionType c = "khoan" then 4
  else if getSectionType c = "diem" then 5
  else 0

/-- The `for _ in range(max_depth)` loop of `is_ancestor` inside
`check_hierarchy_overlap`: follow `parent_id` links upward from the
descendant; succeed as soon as a parent id equals the ancestor's key id,
fail on a falsy parent id, a parent id missing from the chunk map, or
fuel exhaustion. -/
def ancestorWalk (cm : List (String × Chunk)) (ancId : Option String) :
    Nat → Chunk → Bool
  | 0, _ => false
  | Nat.succ fuel, cur =>
    if truthyOpt cur.parent_id then
      if ancId = some (cur.parent_id.getD "") then true
      else
        match lookupA cm (cur.parent_id.getD "") with
        | none => false
        | some next => ancestorWalk cm ancId fuel next
    else false

/-- `is_ancestor(ancestor, descendant)` with the default `max_depth = 5`. -/
def isAncestor (cm : List (String × Chunk)) (anc desc : Chunk) : Bool :=
  ancestorWalk cm (chunkKeyId anc) 5 desc

/-- `check_hierarchy_overlap(chunk1, chunk2)`. -/
def checkHierarchyOverlap (cm : List (String × Chunk)) (c1 c2 : Chunk) : Bool :=
  isAncestor cm c1 c2 || isAncestor cm c2 c1

/-- The id trail the ancestor walk can inspect within `fuel` steps from a
chunk: its parent id, then (when that parent resolves in the map) the
parent's trail. -/
def chainIds (cm : List (String × Chunk)) : Nat → Chunk → List String
  | 0, _ => []
  | Nat.succ fuel, cur =>
    if truthyOpt cur.parent_id then
      cur.parent_id.getD "" ::
        (match lookupA cm (cur.parent_id.getD "") with
         | none => []
         | some next => chainIds cm fuel next)
    else []

/-- `s` is an ancestor id of `cur`: either `cur`'s own truthy parent id, or
an ancestor id of the chunk the map stores for that parent. -/
inductive AncId (cm : List (String × Chunk)) : Chunk → String → Prop
  | parent (cur : Chunk) (pid : String) :
      truthyOpt cur.parent_id = true → cur.parent_id = some pid →
      AncId cm cur pid
  | step (cur : Chunk) (pid : String) (next : Chunk) (s : String) :
      truthyOpt cur.parent_id = true → cur.parent_id = some pid →
      lookupA cm pid = some next → AncId cm next s → AncId cm cur s

/-- The inner `for existing in merged` loop of `merge_chunks_smart`: the
first accepted chunk overlapping the candidate (the loop `break`s there). -/
def findOverlap (cm : List (String × Chunk)) (merged : List Chunk)
    (c : Chunk) : Option Chunk :=
  merged.find? (fun e => checkHierarchyOverlap cm c e)

/-- One candidate of `merge_chunks_smart`: on overlap keep the strictly
deeper of the two (`merged.remove(existing); merged.append(chunk)` when the
candidate is deeper, drop the candidate otherwise), else append. -/
def mergeStep (cm : List (String × Chunk)) (merged : List Chunk)
    (c : Chunk) : List Chunk :=
  match findOverlap cm merged c with
  | none => merged ++ [c]
  | some e =>
    if getDepth e < getDepth c then merged.erase e ++ [c] else merged

/-- The candidate loop of `merge_chunks_smart`, with the
`if len(merged) >= max_chunks: break` test after each candidate. -/
def mergeLoop (cm : List (String × Chunk)) (maxChunks : Nat) :
    List Chunk → List Chunk → List Chunk
  | merged, [] => merged
  | merged, c :: rest =>
    if maxChunks ≤ (mergeStep cm merged c).length then mergeStep cm merged c
    else mergeLoop cm maxChunks (mergeStep cm merged c) rest

/-- `merge_chunks_smart`; `maxChunks` stands for
`(context_settings or {}).get("chunks", settings.max_chunks_multi)` and the
query and query embedding are never read by the function body. -/
def mergeChunksSmart (cm : List (String × Chunk)) (chunks : List Chunk)
    (maxChunks : Nat) : List Chunk :=
  match chunks with
  | [] => []
  | c :: rest =>
    if rest.isEmpty then (c :: rest).take maxChunks
    else (mergeLoop cm maxChunks [c] rest).take maxChunks

/-- The chunk's parent, whenever it resolves in the map, is strictly
shallower than the chunk (the well-formedness the legal hierarchy data is
meant to satisfy). -/
def depthStepB (cm : List (String × Chunk)) (c : Chunk) : Bool :=
  ((lookupA cm (c.parent_id.getD "")).map
    (fun pc => decide (getDepth pc < getDepth c))).getD true

def depthConsistentB (cm : List (String × Chunk)) : Bool :=
  cm.all (fun p => depthStepB cm p.2)

/-- The chunk is stored in the map under its own key id. -/
def registeredB (cm : List (String × Chunk)) (c : Chunk) : Bool :=
  decide (chunkKeyId c = some ((chunkKeyId c).getD "")) &&
  decide (lookupA cm ((chunkKeyId c).getD "") = some c)

/-- Some chunk-map key resolves to the chunk. -/
def InMap (cm : List (String × Chunk)) (c : Chunk) : Prop :=
  ∃ k, lookupA cm k = some c

/-- A point-level chunk (depth 5) that the map records as the parent of the
two chapter-level chunks `exA` and `exB` (depth 1). -/
def exP : Chunk := { id := some "p", point := some "x" }

def exA : Chunk := { id := some "a", parent_id := some "p", chapter := some "1" }

def exB : Chunk := { id := some "b", parent_id := some "p", chapter := some "2" }

def exMap : List (String × Chunk) := [("a", exA), ("b", exB), ("p", exP)]

/-- A depth-consistent three-level map: article `exD` inside section `exM`
inside chapter `exC`. -/
def exC : Chunk := { id := some "c", chapter := some "I" }

def exM : Chunk := { id := some "m", parent_id := some "c", section_ := some "1" }

def exD : Chunk := { id := some "d", parent_id := some "m", article := some "7" }

def exGoodMap : List (String × Chunk) := [("c", exC), ("m", exM), ("d", exD)]

/-! ## C10 — `RAGAgent.process_query` and the step-10 cache write
(`src/agents/rag_agent.py`)

The pipeline's external stages (embedding service, Qdrant search, query
analyzer/expander, deduplication, sibling enrichment, reranker and the LLM)
are oracles fixing the value each stage produces for the run; step 7 is the
embedded `mergeChunksSmart` and steps 1/10 are the embedded semantic
cache. -/

/-- The result dict assembled at step 9 of `process_query`, also the shape
returned by `_empty_result`; the formatted source dicts are opaque
(`σ`). -/
structure RagResult (σ : Type) where
  query : String
  answer : String
  sources : List σ
  intent : String
  documents_retrieved : Nat
  documents_relevant : Nat
deriving DecidableEq

/-- `RAGAgent._empty_result`. -/
def emptyResult (σ : Type) (query intent : String) : RagResult σ :=
  { query := query
    answer := "Xin lỗi, tôi không tìm thấy thông tin phù hợp trong văn bản quy định. Bạn có thể thử hỏi lại với từ khóa cụ thể hơn."
    sources := []
    intent := intent
    documents_retrieved := 0
    documents_relevant := 0 }

/-- Modelled from the spec: `process_query` reads
`settings.context_settings.get(intent, settings.context_settings["general"])`
and `merge_chunks_smart` reads its `"chunks"` budget from it, but the
`Settings` class declares no `context_settings` field; the per-intent
`max chunks` column of the spec's adaptive-context table is
`specific 3, comparison 4, list 5, explanation 4, general 3`. -/
def contextChunks (intent : String) : Nat :=
  if intent = "specific" then 3
  else if intent = "comparison" then 4
  else if intent = "list" then 5
  else if intent = "explanation" then 4
  else 3

/-- One run's external effects: the value each non-pure pipeline stage
produces.  `candidates` is the step-4 hybrid-search output, `deduped` the
step-5 output, `enriched` the value the `candidates` variable holds after
step 5.5, `reranked` the step-6 output (either reranker branch), `answer`
the step-9 LLM output. -/
structure RagRun (σ : Type) where
  queryEmbedding : List ℚ
  intent : String
  candidates : List Chunk
  deduped : List Chunk
  enriched : List Chunk
  reranked : List Chunk
  answer : String
  formatSources : List Chunk → List σ
  chunkMap : List (String × Chunk)
  now : Int

/-- The cache list after a `lookup` call: the scan itself does not mutate,
but `if len(self._cache) > 1000: self.cleanup()` drops expired entries. -/
def cacheAfterLookup (σ : Type) (run : RagRun σ)
    (cs : List (CacheEntry (RagResult σ))) : List (CacheEntry (RagResult σ)) :=
  if cs.length > 1000 then
    cacheCleanup defaultSettings.cache_ttl_hours run.now cs
  else cs

/-- `RAGAgent.process_query`: the returned response together with the
semantic-cache list after the call (`none` when `self.cache` is `None`).
Step 1 returns a cache hit unchanged; an empty step-4 candidate list and an
empty step-7 merge result return `_empty_result`; otherwise the result dict
is built and step 10 appends it to the cache exactly when the cache
component exists, `merged` is non-empty and the answer is longer than 50
characters. -/
def processQuery (σ : Type)
    (cache : Option (List (CacheEntry (RagResult σ))))
    (query : String) (run : RagRun σ) :
    RagResult σ × Option (List (CacheEntry (RagResult σ))) :=
  let cache2 := cache.map (cacheAfterLookup σ run)
  let hit : Option (CacheHit (RagResult σ)) :=
    match cache with
    | none => none
    | some cs =>
      SemanticCache.lookup cs run.queryEmbedding none
        defaultSettings.cache_ttl_hours
        defaultSettings.cache_similarity_threshold run.now
  match hit with
  | some h => (h.response, cache2)
  | none =>
    if run.candidates.isEmpty then
      (emptyResult σ query run.intent, cache2)
    else
      let merged :=
        mergeChunksSmart run.chunkMap run.reranked (contextChunks run.intent)
      if merged.isEmpty then
        (emptyResult σ query run.intent, cache2)
      else
        let result : RagResult σ :=
          { query := query
            answer := run.answer
            sources := run.formatSources merged
            intent := run.intent
            documents_retrieved := run.enriched.length
            documents_relevant := merged.length }
        match cache2 with
        | none => (result, none)
        | some cs2 =>
          if ¬ merged.isEmpty ∧ run.answer.length > 50 then
            (result,
              some (SemanticCache.add cs2 query run.queryEmbedding result
                run.now))
          else (result, some cs2)

/-- A concrete run that reaches step 10 and writes to the cache. -/
def c10run : RagRun String :=
  { queryEmbedding := []
    intent := "general"
    candidates := [exD]
    deduped := [exD]
    enriched := [exD]
    reranked := [exD]
    answer := "Theo Dieu 7, thi sinh du dieu kien khi dat cac tieu chuan sau."
    formatSources := fun _ => []
    chunkMap := exGoodMap
    now := 0 }

def c10result : RagResult String :=
  { query := "q"
    answer := c10run.answer
    sources := []
    intent := "general"
    documents_retrieved := 1
    documents_relevant := 1 }

def c10entry : CacheEntry (RagResult String) :=
  ⟨"q", [], c10result, 0⟩

/-! # Theorems -/

/-! ### List helper lemmas -/

theorem dropWhile_head_false {p : Char → Bool} {l : List Char} {x : Char}
    {r : List Char} (h : l.dropWhile p = x :: r) : p x = false := by
  induction l with
  | nil => simp [List.dropWhile] at h
  | cons a as ih =>
    rw [List.dropWhile_cons] at h
    by_cases hp : p a
    · exact ih (by simpa [hp] using h)
    · obtain ⟨rfl, -⟩ : a = x ∧ as = r := by simpa [hp] using h
      simpa using hp

theorem dropWhile_decomp {p : Char → Bool} {l : List Char} {x : Char}
    {r : List Char} (h : l.dropWhile p = x :: r) :
    l = l.takeWhile p ++ x :: r := by
  conv_lhs => rw [← List.takeWhile_append_dropWhile (p := p) (l := l)]
  rw [h]

theorem dropWhile_all_append {p : Char → Bool} {ws : List Char} {x : Char}
    {r : List Char} (hws : ∀ c ∈ ws, p c = true) (hx : p x = false) :
    (ws ++ x :: r).dropWhile p = x :: r := by
  induction ws with
  | nil => simp [List.dropWhile_cons, hx]
  | cons a as ih =>
    have ha : p a = true := hws a (by simp)
    simp only [List.cons_append, List.dropWhile_cons, ha, if_true]
    exact ih (fun c hc => hws c (by simp [hc]))

/-! ### The filter-pattern substitution (C9 machinery) -/

theorem matchFilterPre_charac {field : List Char}
    {l after : List Char} (h : matchFilterPre field l = some after) :
    ∃ m, m ≠ [] ∧ l = m ++ after ∧
      ∀ z, matchFilterPre field (m ++ z) = some z := by
  unfold matchFilterPre at h
  by_cases htk : (l.take field.length).map Char.toLower = field
  swap
  · rw [if_neg htk] at h; exact Option.noConfusion h
  rw [if_pos htk] at h
  simp only [] at h
  cases hd1 : (l.drop field.length).dropWhile isPyWs with
  | nil => rw [hd1] at h; simp at h
  | cons x r2 =>
    rw [hd1] at h
    simp only [List.head?_cons, List.tail_cons, Option.some.injEq] at h
    by_cases hx : x = '='
    swap
    · rw [if_neg hx] at h; exact Option.noConfusion h
    subst hx
    rw [if_pos rfl] at h
    cases hd2 : r2.dropWhile isPyWs with
    | nil => rw [hd2] at h; simp at h
    | cons y r4 =>
      rw [hd2] at h
      simp only [List.head?_cons, List.tail_cons, Option.some.injEq] at h
      by_cases hy : y = '\''
      swap
      · rw [if_neg hy] at h; exact Option.noConfusion h
      subst hy
      rw [if_pos rfl] at h
      cases hd3 : r4.dropWhile notQuote with
      | nil => rw [hd3] at h; simp at h
      | cons w r6 =>
        rw [hd3] at h
        simp only [List.head?_cons, List.tail_cons, Option.some.injEq] at h
        by_cases hw : w = '\''
        swap
        · rw [if_neg hw] at h; exact Option.noConfusion h
        subst hw
        rw [if_pos rfl] at h
        have hafter : r6 = after := Option.some.inj h
        subst hafter
        -- names for the pieces
        have hlen : (l.take field.length).length = field.length := by
          have := congrArg List.length htk
          simpa using this
        have hws1 : ∀ c ∈ (l.drop field.length).takeWhile isPyWs,
            isPyWs c = true := fun c hc => List.mem_takeWhile_imp hc
        have hws2 : ∀ c ∈ r2.takeWhile isPyWs, isPyWs c = true :=
          fun c hc => List.mem_takeWhile_imp hc
        have hbody : ∀ c ∈ r4.takeWhile notQuote, notQuote c = true :=
          fun c hc => List.mem_takeWhile_imp hc
        refine ⟨l.take field.length ++ (l.drop field.length).takeWhile isPyWs
            ++ '=' :: r2.takeWhile isPyWs
            ++ '\'' :: r4.takeWhile notQuote ++ ['\''], ?_, ?_, ?_⟩
        · simp
        · conv_lhs => rw [← List.take_append_drop field.length l,
            dropWhile_decomp hd1, dropWhile_decomp hd2, dropWhile_decomp hd3]
          simp
        · intro z
          have hrest :
              (l.take field.length ++ (l.drop field.length).takeWhile isPyWs
                ++ '=' :: r2.takeWhile isPyWs
                ++ '\'' :: r4.takeWhile notQuote ++ ['\'']) ++ z
              = l.take field.length ++ ((l.drop field.length).takeWhile isPyWs
                ++ '=' :: (r2.takeWhile isPyWs
                ++ '\'' :: (r4.takeWhile notQuote ++ '\'' :: z))) := by
            simp
          rw [hrest]
          simp only [matchFilterPre]
          rw [List.take_left' hlen, List.drop_left' hlen]
          simp [htk, dropWhile_all_append hws1 (show isPyWs '=' = false by decide),
            dropWhile_all_append hws2 (show isPyWs '\'' = false by decide),
            dropWhile_all_append hbody (show notQuote '\'' = false by decide)]

theorem subDecomp_refl (field repl : List Char) :
    ∀ l, SubDecomp field repl l l := by
  intro l
  induction l with
  | nil => exact SubDecomp.nil
  | cons c rest ih => exact SubDecomp.keep c rest rest ih

theorem subFilterFuel_decomp (field repl : List Char) :
    ∀ fuel l, l.length < fuel →
      SubDecomp field repl l (subFilterFuel field repl fuel l) := by
  intro fuel
  induction fuel with
  | zero => intro l h; omega
  | succ fuel ih =>
    intro l hl
    cases l with
    | nil => exact SubDecomp.nil
    | cons c rest =>
      cases hm : matchFilterPre field (c :: rest) with
      | none =>
        have : subFilterFuel field repl (fuel + 1) (c :: rest)
            = c :: subFilterFuel field repl fuel rest := by
          simp [subFilterFuel, hm]
        rw [this]
        exact SubDecomp.keep c rest _ (ih rest (by simpa using Nat.lt_of_succ_lt_succ hl))
      | some after =>
        obtain ⟨m, hm0, hmeq, hmprop⟩ := matchFilterPre_charac hm
        have hout : subFilterFuel field repl (fuel + 1) (c :: rest)
            = repl ++ subFilterFuel field repl fuel after := by
          simp [subFilterFuel, hm]
        have hafter : after.length < fuel := by
          have hlen := congrArg List.length hmeq
          have hm1 : 1 ≤ m.length := by
            cases m with
            | nil => exact absurd rfl hm0
            | cons a as => simp
          simp at hlen
          simp at hl
          omega
        rw [hout, hmeq]
        exact SubDecomp.rw m after _ hm0 hmprop (ih after hafter)

theorem subFilterFuel_id_of_noMatch (field repl : List Char) :
    ∀ l fuel, hasFilterMatch field l = false →
      subFilterFuel field repl fuel l = l := by
  intro l
  induction l with
  | nil => intro fuel h; cases fuel <;> simp [subFilterFuel]
  | cons c rest ih =>
    intro fuel h
    rw [hasFilterMatch] at h
    have h1 : matchFilterPre field (c :: rest) = none := by
      cases hmp : matchFilterPre field (c :: rest) with
      | none => rfl
      | some v => rw [hmp] at h; simp at h
    have h2 : hasFilterMatch field rest = false := by
      rw [h1] at h; simpa using h
    cases fuel with
    | zero => rfl
    | succ fuel =>
      simp [subFilterFuel, h1]
      exact ih fuel h2

/-- C1 (as stated) is false: the fallback branch of `_extract_sql` can produce
a string — here the bare word `SELECT`, returned verbatim because the regex
`SELECT\s+.+?` needs whitespace plus at least one more character — that passes
`_validate_sql` (no dangerous keyword, upper-cased strip starts with `SELECT`,
grader exception is a soft pass) yet does not terminate with `';'`. -/
theorem c1_counterexample :
    extractSql "SELECT" = "SELECT" ∧
    (validateSql GraderOutcome.raised "SELECT").1 = true ∧
    ("SELECT" : String).data.getLast? ≠ some ';' := by
  refine ⟨by decide, by decide, by decide⟩

/-- C1 amended: a SQL string that passes `_validate_sql` starts with `SELECT`
(case-insensitively, after stripping whitespace) and contains none of the
forbidden keywords as a case-insensitive substring; a string produced by the
regex branch of `_extract_sql` moreover ends with `';'` (the fallback branch
need not); and `_execute_sql` runs the query unchanged when it contains a
(case-insensitive) `LIMIT` substring, and otherwise strips trailing semicolons
and appends `" LIMIT 50;"` before execution. -/
theorem c1_validated_sql_shape :
    (∀ (grader : GraderOutcome) (sql : String),
      (validateSql grader sql).1 = true →
        pyStartsWith (pyStrip (pyUpper sql)) "SELECT" = true ∧
        ∀ kw ∈ dangerousKeywords, strHasInfix (pyUpper sql) kw = false) ∧
    (∀ (resp : String) (g : List Char),
      searchSelect (preExtract resp).data = some g →
        extractSql resp = pyStrip ⟨g⟩ ++ ";" ∧
        (extractSql resp).data.getLast? = some ';') ∧
    (∀ sql : String,
      (strHasInfix (pyUpper sql) "LIMIT" = false →
        executeSqlQuery sql = rstripSemis sql ++ " LIMIT 50;") ∧
      (strHasInfix (pyUpper sql) "LIMIT" = true →
        executeSqlQuery sql = sql)) := by
  refine ⟨?_, ?_, ?_⟩
  · intro grader sql h
    unfold validateSql at h
    cases hfind : dangerousKeywords.find? (fun kw => strHasInfix (pyUpper sql) kw) with
    | some kw => rw [hfind] at h; simp at h
    | none =>
      rw [hfind] at h
      constructor
      · by_cases hstart : pyStartsWith (pyStrip (pyUpper sql)) "SELECT" = true
        · exact hstart
        · rw [if_pos (by simpa using hstart)] at h; simp at h
      · intro kw hkw
        have := List.find?_eq_none.mp hfind kw hkw
        simpa using this
  · intro resp g hsearch
    have hext : extractSql resp = pyStrip ⟨g⟩ ++ ";" := by
      simp only [extractSql, hsearch]
    refine ⟨hext, ?_⟩
    rw [hext, String.data_append]
    exact List.getLast?_concat _
  · intro sql
    constructor
    · intro h; unfold executeSqlQuery; rw [h]; simp
    · intro h; unfold executeSqlQuery; rw [h]; simp

/-- Witness for the amended C1 at concrete inputs: a well-formed generated
query passes validation and satisfies the shape properties, and the LIMIT
rewrite fires exactly when no LIMIT is present. -/
theorem c1_validated_sql_shape_witness :
    pyStartsWith (pyStrip (pyUpper "select nam from view_tra_cuu_diem;"))
        "SELECT" = true ∧
    strHasInfix (pyUpper "select nam from view_tra_cuu_diem;") "DROP" = false ∧
    extractSql "SELECT nam FROM v" = "SELECT nam FROM v;" ∧
    executeSqlQuery "SELECT nam FROM v;" = "SELECT nam FROM v LIMIT 50;" := by
  refine ⟨?_, ?_, ?_, ?_⟩
  · exact ((c1_validated_sql_shape.1 GraderOutcome.raised
      "select nam from view_tra_cuu_diem;" (by decide)).1)
  · exact ((c1_validated_sql_shape.1 GraderOutcome.raised
      "select nam from view_tra_cuu_diem;" (by decide)).2 "DROP" (by decide))
  · have := (c1_validated_sql_shape.2.1 "SELECT nam FROM v"
      "SELECT nam FROM v".data (by decide)).1
    rw [this]; decide
  · have := (c1_validated_sql_shape.2.2 "SELECT nam FROM v;").1 (by decide)
    rw [this]; decide

/-- C9: `_fix_filter_values` only rewrites filter literals that are already
present.  The gender pass and then the region pass each transform the SQL by a
`SubDecomp`: every changed span is a substring matching
`gioi_tinh\s*=\s*'[^']*'` (resp. `khu_vuc\s*=\s*'[^']*'`), replaced by the
corresponding fixed literal, all other characters copied verbatim; a pass
whose entity is absent (or empty) is the identity, and if the SQL contains no
occurrence of either pattern the string is returned unchanged, no predicate
being inserted. -/
theorem c9_fix_filter_frame (sql : String) (g k : Option String) :
    (∃ mid : List Char,
      SubDecomp "gioi_tinh".data
        (filterRepl "gioi_tinh".data (g.getD "")) sql.data mid ∧
      SubDecomp "khu_vuc".data
        (filterRepl "khu_vuc".data (k.getD "")) mid
        (fixFilterValues sql g k).data ∧
      (truthyOpt g = false → mid = sql.data)) ∧
    (g = none ∧ k = none → fixFilterValues sql g k = sql) ∧
    (hasFilterMatch "gioi_tinh".data sql.data = false ∧
     hasFilterMatch "khu_vuc".data sql.data = false →
      fixFilterValues sql g k = sql) := by
  refine ⟨?_, ?_, ?_⟩
  · refine ⟨(if truthyOpt g then
        ⟨subFilter "gioi_tinh".data
          (filterRepl "gioi_tinh".data (g.getD "")) sql.data⟩
      else sql : String).data, ?_, ?_, ?_⟩
    · by_cases hg : truthyOpt g = true
      · simp only [hg, if_true]
        exact subFilterFuel_decomp _ _ _ _ (Nat.lt_succ_self _)
      · simp only [Bool.not_eq_true] at hg
        simp only [hg, Bool.false_eq_true, if_false]
        exact subDecomp_refl _ _ _
    · unfold fixFilterValues
      by_cases hk : truthyOpt k = true
      · simp only [hk, if_true]
        exact subFilterFuel_decomp _ _ _ _ (Nat.lt_succ_self _)
      · simp only [Bool.not_eq_true] at hk
        simp only [hk, Bool.false_eq_true, if_false]
        exact subDecomp_refl _ _ _
    · intro hg
      simp [hg]
  · rintro ⟨rfl, rfl⟩
    rfl
  · rintro ⟨hg, hk⟩
    unfold fixFilterValues
    have hid1 : (if truthyOpt g then
        (⟨subFilter "gioi_tinh".data
          (filterRepl "gioi_tinh".data (g.getD "")) sql.data⟩ : String)
      else sql) = sql := by
      by_cases hgt : truthyOpt g = true
      · simp only [hgt, if_true]
        rw [subFilter, subFilterFuel_id_of_noMatch _ _ _ _ hg]
      · simp only [Bool.not_eq_true] at hgt
        simp [hgt]
    rw [hid1]
    by_cases hkt : truthyOpt k = true
    · simp only [hkt, if_true]
      rw [subFilter, subFilterFuel_id_of_noMatch _ _ _ _ hk]
    · simp only [Bool.not_eq_true] at hkt
      simp [hkt]

/-- Witness for C9 at concrete inputs: absent entities leave the SQL
untouched, a SQL without filter literals is unchanged even with entities
present, and an existing `gioi_tinh` literal is rewritten in place. -/
theorem c9_fix_filter_frame_witness :
    fixFilterValues "SELECT 1" none none = "SELECT 1" ∧
    fixFilterValues "SELECT nam FROM v" (some "nu") (some "mien_bac")
      = "SELECT nam FROM v" ∧
    fixFilterValues "WHERE gioi_tinh = 'Nam'" (some "nu") none
      = "WHERE gioi_tinh = 'nu'" := by
  refine ⟨?_, ?_, ?_⟩
  · exact (c9_fix_filter_frame "SELECT 1" none none).2.1 ⟨rfl, rfl⟩
  · exact (c9_fix_filter_frame "SELECT nam FROM v"
      (some "nu") (some "mien_bac")).2.2 ⟨by decide, by decide⟩
  · decide

/-! ### String order and grouping lemmas (C6 machinery) -/

theorem listLexLe_total : ∀ a b : List Char,
    listLexLe a b = true ∨ listLexLe b a = true := by
  intro a
  induction a with
  | nil => intro b; left; rfl
  | cons x xs ih =>
    intro b
    cases b with
    | nil => right; rfl
    | cons y ys =>
      rcases lt_trichotomy x y with h | h | h
      · left; simp [listLexLe, h, asymm h]
      · subst h
        rcases ih ys with h2 | h2
        · left; simp [listLexLe, lt_irrefl, h2]
        · right; simp [listLexLe, lt_irrefl, h2]
      · right; simp [listLexLe, h, asymm h]

theorem listLexLe_trans : ∀ a b c : List Char,
    listLexLe a b = true → listLexLe b c = true → listLexLe a c = true := by
  intro a
  induction a with
  | nil => intro b c _ _; rfl
  | cons x xs ih =>
    intro b c hab hbc
    cases b with
    | nil => simp [listLexLe] at hab
    | cons y ys =>
      cases c with
      | nil => simp [listLexLe] at hbc
      | cons z zs =>
        by_cases h1 : x < y
        · by_cases h2 : y < z
          · have : x < z := lt_trans h1 h2
            simp [listLexLe, this, asymm this]
          · by_cases h2b : z < y
            · simp [listLexLe, h2, h2b] at hbc
            · have hyz : y = z := le_antisymm (not_lt.mp h2b) (not_lt.mp h2)
              subst hyz
              simp [listLexLe, h1, asymm h1]
        · by_cases h1b : y < x
          · simp [listLexLe, h1, h1b] at hab
          · have hxy : x = y := le_antisymm (not_lt.mp h1b) (not_lt.mp h1)
            subst hxy
            by_cases h2 : x < z
            · simp [listLexLe, h2, asymm h2]
            · by_cases h2b : z < x
              · simp [listLexLe, h2, h2b] at hbc
              · have hxz : x = z := le_antisymm (not_lt.mp h2b) (not_lt.mp h2)
                subst hxz
                simp only [listLexLe, lt_irrefl, if_false] at hab hbc ⊢
                exact ih ys zs hab hbc

theorem listLexLe_antisymm : ∀ a b : List Char,
    listLexLe a b = true → listLexLe b a = true → a = b := by
  intro a
  induction a with
  | nil =>
    intro b _ hba
    cases b with
    | nil => rfl
    | cons y ys => simp [listLexLe] at hba
  | cons x xs ih =>
    intro b hab hba
    cases b with
    | nil => simp [listLexLe] at hab
    | cons y ys =>
      by_cases h1 : x < y
      · simp [listLexLe, h1, asymm h1] at hba
      · by_cases h2 : y < x
        · simp [listLexLe, h1, h2] at hab
        · have hxy : x = y := le_antisymm (not_lt.mp h2) (not_lt.mp h1)
          subst hxy
          simp only [listLexLe, lt_irrefl, if_false] at hab hba
          rw [ih ys hab hba]

theorem strLeB_total (a b : String) : strLeB a b = true ∨ strLeB b a = true :=
  listLexLe_total a.data b.data

theorem strLeB_trans (a b c : String) (h1 : strLeB a b = true)
    (h2 : strLeB b c = true) : strLeB a c = true :=
  listLexLe_trans a.data b.data c.data h1 h2

theorem strLeB_antisymm (a b : String) (h1 : strLeB a b = true)
    (h2 : strLeB b a = true) : a = b := by
  have hd : a.data = b.data := listLexLe_antisymm a.data b.data h1 h2
  cases a; cases b; exact congrArg String.mk hd

/-- Every `khoi_list` built by the grouping loop is duplicate-free. -/
theorem buildGroups_nodup : ∀ (rows : List SqlRow)
    (acc : List (GroupKey × List String)), (∀ p ∈ acc, p.2.Nodup) →
    ∀ p ∈ rows.foldl addRowToGroups acc, p.2.Nodup := by
  intro rows
  induction rows with
  | nil => intro acc h p hp; exact h p hp
  | cons r rest ih =>
    intro acc hacc p hp
    rw [List.foldl_cons] at hp
    refine ih (addRowToGroups acc r) ?_ p hp
    intro q hq
    unfold addRowToGroups at hq
    simp only [List.mem_map] at hq
    obtain ⟨p1, hp1, rfl⟩ := hq
    have hp1nodup : p1.2.Nodup := by
      by_cases hany : acc.any (fun p => p.1 = groupKeyOf r) = true
      · simp only [hany, if_true] at hp1
        exact hacc p1 hp1
      · simp only [hany] at hp1
        rcases List.mem_append.mp hp1 with hmem | hmem
        · exact hacc p1 hmem
        · simp only [List.mem_singleton] at hmem
          subst hmem; simp
    by_cases heq : p1.1 = groupKeyOf r
    · simp only [heq, if_true]
      by_cases hcond : pyVal r.ma_khoi ≠ "" ∧ ¬ (pyVal r.ma_khoi ∈ p1.2)
      · rw [if_pos hcond]
        refine List.Nodup.append hp1nodup (by simp) ?_
        intro x hx hx2
        simp only [List.mem_singleton] at hx2
        subst hx2
        exact hcond.2 hx
      · simp only [if_neg hcond]
        exact hp1nodup
    · simp only [if_neg heq]
      exact hp1nodup

/-- Sorting two duplicate-free lists with the same members gives the same
output. -/
theorem pySortStrings_eq {l1 l2 : List String} (h1 : l1.Nodup)
    (h2 : l2.Nodup) (hmem : ∀ x, x ∈ l1 ↔ x ∈ l2) :
    pySortStrings l1 = pySortStrings l2 := by
  haveI htot : IsTotal String (fun a b => strLeB a b = true) := ⟨strLeB_total⟩
  haveI htr : IsTrans String (fun a b => strLeB a b = true) :=
    ⟨fun a b c => strLeB_trans a b c⟩
  haveI hanti : IsAntisymm String (fun a b => strLeB a b = true) :=
    ⟨fun a b => strLeB_antisymm a b⟩
  have hperm : l1.Perm l2 := List.perm_of_nodup_nodup_toFinset_eq h1 h2
    (by ext x; simpa using hmem x)
  have hp : (pySortStrings l1).Perm (pySortStrings l2) :=
    ((List.perm_insertionSort _ l1).trans hperm).trans
      (List.perm_insertionSort _ l2).symm
  exact List.eq_of_perm_of_sorted hp
    (List.sorted_insertionSort _ l1) (List.sorted_insertionSort _ l2)

/-- Equivalent groupings render to the same merged rows. -/
theorem mergedMap_eq : ∀ (g1 g2 : List (GroupKey × List String)),
    (∀ p ∈ g1, p.2.Nodup) → (∀ q ∈ g2, q.2.Nodup) → GroupsEquiv g1 g2 →
    g1.map mergedOfGroup = g2.map mergedOfGroup := by
  intro g1
  induction g1 with
  | nil =>
    intro g2 _ _ hequiv
    cases hequiv
    rfl
  | cons a l ih =>
    intro g2 h1 h2 hequiv
    cases hequiv with
    | cons hab hrest =>
      rename_i b m
      simp only [List.map_cons, List.cons.injEq]
      constructor
      · obtain ⟨hkey, hmem⟩ := hab
        have hsort : pySortStrings a.2 = pySortStrings b.2 :=
          pySortStrings_eq (h1 a (by simp)) (h2 b (by simp)) hmem
        simp [mergedOfGroup, hkey, hsort]
      · exact ih m (fun p hp => h1 p (by simp [hp]))
          (fun q hq => h2 q (by simp [hq])) hrest

/-- C6 (as stated) is false: `_build_markdown_table` emits groups in the
order their keys first occur, so swapping two rows with distinct group keys
permutes the data rows of the table. -/
theorem c6_counterexample :
    buildMarkdownTable
        [{ nam := some "2024" }, { nam := some "2023" }]
      ≠ buildMarkdownTable
        [{ nam := some "2023" }, { nam := some "2024" }] := by
  decide

/-- C6 amended: the table is a deterministic function of the grouping
outcome — any two row lists whose grouping passes produce the same group keys
in the same first-occurrence order, with the same set of `ma_khoi` values per
key, render to byte-identical tables (the khối cell sorts the collected
values, so reordering rows inside a group never changes the output); but a
permutation that changes the first-occurrence order of group keys reorders
the data rows. -/
theorem c6_table_group_invariance (rows1 rows2 : List SqlRow)
    (h : GroupsEquiv (buildGroups rows1) (buildGroups rows2)) :
    buildMarkdownTable rows1 = buildMarkdownTable rows2 := by
  have hmerged : (buildGroups rows1).map mergedOfGroup
      = (buildGroups rows2).map mergedOfGroup :=
    mergedMap_eq _ _
      (fun p hp => buildGroups_nodup rows1 [] (by simp) p hp)
      (fun q hq => buildGroups_nodup rows2 [] (by simp) q hq) h
  unfold buildMarkdownTable
  rw [hmerged]

/-- Witness for the amended C6: two rows of one admission group listed in
either order produce the byte-identical table with the merged khối cell. -/
theorem c6_table_group_invariance_witness :
    buildMarkdownTable
        [{ nam := some "2024", ma_khoi := some "B00" },
         { nam := some "2024", ma_khoi := some "A00" }]
      = buildMarkdownTable
        [{ nam := some "2024", ma_khoi := some "A00" },
         { nam := some "2024", ma_khoi := some "B00" }] := by
  apply c6_table_group_invariance
  have e1 : buildGroups
      [{ nam := some "2024", ma_khoi := some "B00" },
       { nam := some "2024", ma_khoi := some "A00" }]
      = [(groupKeyOf { nam := some "2024" }, ["B00", "A00"])] := by decide
  have e2 : buildGroups
      [{ nam := some "2024", ma_khoi := some "A00" },
       { nam := some "2024", ma_khoi := some "B00" }]
      = [(groupKeyOf { nam := some "2024" }, ["A00", "B00"])] := by decide
  rw [GroupsEquiv, e1, e2]
  refine List.Forall₂.cons ⟨rfl, ?_⟩ List.Forall₂.nil
  intro x
  simp only [List.mem_cons, List.not_mem_nil, or_false]
  tauto

/-! ### RRF lemmas (C5 machinery) -/

theorem keys_rrfAdd (sc : List (Nat × ℚ)) (d : Nat) (inc : ℚ) :
    (rrfAdd sc d inc).map Prod.fst = firstOccAppend (sc.map Prod.fst) d := by
  by_cases hany : sc.any (fun p => p.1 = d) = true
  · have hmem : d ∈ sc.map Prod.fst := by
      simp only [List.any_eq_true] at hany
      obtain ⟨p, hp, hpd⟩ := hany
      simp only [decide_eq_true_eq] at hpd
      exact List.mem_map.mpr ⟨p, hp, hpd⟩
    rw [rrfAdd, if_pos hany, firstOccAppend, if_pos hmem, List.map_map]
    refine List.map_congr_left ?_
    intro p _
    by_cases hp : p.1 = d <;> simp [hp]
  · have hmem : ¬ d ∈ sc.map Prod.fst := by
      intro hd
      obtain ⟨p, hp, hpd⟩ := List.mem_map.mp hd
      exact hany (List.any_eq_true.mpr ⟨p, hp, by simp [hpd]⟩)
    rw [rrfAdd, if_neg hany, firstOccAppend, if_neg hmem, List.map_append]
    rfl

theorem nodup_firstOccAppend {ks : List Nat} (h : ks.Nodup) (d : Nat) :
    (firstOccAppend ks d).Nodup := by
  unfold firstOccAppend
  by_cases hd : d ∈ ks
  · simpa [hd] using h
  · simp only [hd, if_false]
    refine List.Nodup.append h (by simp) ?_
    intro x hx hx2
    simp only [List.mem_singleton] at hx2
    subst hx2
    exact hd hx

theorem getVal_append (l1 l2 : List (Nat × ℚ)) (i : Nat) :
    getVal (l1 ++ l2) i = getVal l1 i + getVal l2 i := by
  induction l1 with
  | nil => simp [getVal]
  | cons e rest ih => simp [getVal, ih]; ring

theorem getVal_eq_zero_of_not_mem {sc : List (Nat × ℚ)} {i : Nat}
    (h : ¬ i ∈ sc.map Prod.fst) : getVal sc i = 0 := by
  induction sc with
  | nil => rfl
  | cons e rest ih =>
    simp only [List.map_cons, List.mem_cons] at h
    push_neg at h
    rw [getVal, if_neg (fun he => h.1 (by rw [he])), ih h.2]
    ring

theorem getVal_update {d : Nat} {inc : ℚ} :
    ∀ (sc : List (Nat × ℚ)), (sc.map Prod.fst).Nodup →
      sc.any (fun p => p.1 = d) = true →
      getVal (sc.map (fun p => if p.1 = d then (p.1, p.2 + inc) else p)) i
        = getVal sc i + (if d = i then inc else 0) := by
  intro sc
  induction sc with
  | nil => intro _ hany; simp at hany
  | cons e rest ih =>
    intro hnd hany
    simp only [List.map_cons, List.nodup_cons] at hnd
    by_cases he : e.1 = d
    · have hrest_nod : ¬ d ∈ rest.map Prod.fst := by rw [← he]; exact hnd.1
      have hmapid : rest.map
          (fun p => if p.1 = d then (p.1, p.2 + inc) else p) = rest := by
        have h1 : rest.map
            (fun p => if p.1 = d then (p.1, p.2 + inc) else p)
            = rest.map id := by
          refine List.map_congr_left ?_
          intro p hp
          have hne : p.1 ≠ d := by
            intro hpd
            exact hrest_nod (List.mem_map.mpr ⟨p, hp, hpd⟩)
          simp [hne]
        rw [h1, List.map_id]
      rw [List.map_cons, hmapid, if_pos he, getVal, getVal]
      by_cases hi : d = i
      · subst hi
        rw [if_pos he, if_pos he, if_pos rfl]
        ring
      · have : e.1 ≠ i := fun hei => hi (he ▸ hei)
        rw [if_neg this, if_neg this, if_neg hi]
        ring
    · have hrest : rest.any (fun p => p.1 = d) = true := by
        simp only [List.any_cons] at hany
        rcases Bool.or_eq_true_iff.mp hany with h1 | h1
        · exact absurd (by simpa using h1) he
        · exact h1
      rw [List.map_cons, if_neg he, getVal, getVal, ih hnd.2 hrest]
      ring

theorem getVal_rrfAdd {sc : List (Nat × ℚ)} (hnd : (sc.map Prod.fst).Nodup)
    (d : Nat) (inc : ℚ) (i : Nat) :
    getVal (rrfAdd sc d inc) i = getVal sc i + (if d = i then inc else 0) := by
  by_cases hany : sc.any (fun p => p.1 = d) = true
  · rw [rrfAdd, if_pos hany]
    exact getVal_update sc hnd hany
  · rw [rrfAdd, if_neg hany, getVal_append]
    simp [getVal]

theorem keys_rrfFold : ∀ (cs acc : List (Nat × ℚ)),
    (cs.foldl (fun sc c => rrfAdd sc c.1 c.2) acc).map Prod.fst
      = cs.foldl (fun ks c => firstOccAppend ks c.1) (acc.map Prod.fst) := by
  intro cs
  induction cs with
  | nil => intro acc; rfl
  | cons c rest ih =>
    intro acc
    rw [List.foldl_cons, List.foldl_cons, ih, keys_rrfAdd]

theorem nodup_keys_rrfFold : ∀ (cs acc : List (Nat × ℚ)),
    (acc.map Prod.fst).Nodup →
    ((cs.foldl (fun sc c => rrfAdd sc c.1 c.2) acc).map Prod.fst).Nodup := by
  intro cs
  induction cs with
  | nil => intro acc h; exact h
  | cons c rest ih =>
    intro acc h
    rw [List.foldl_cons]
    refine ih _ ?_
    rw [keys_rrfAdd]
    exact nodup_firstOccAppend h c.1

theorem getVal_rrfFold (i : Nat) : ∀ (cs acc : List (Nat × ℚ)),
    (acc.map Prod.fst).Nodup →
    getVal (cs.foldl (fun sc c => rrfAdd sc c.1 c.2) acc) i
      = getVal acc i + getVal cs i := by
  intro cs
  induction cs with
  | nil => intro acc _; simp [getVal]
  | cons c rest ih =>
    intro acc hnd
    rw [List.foldl_cons]
    have hnd2 : ((rrfAdd acc c.1 c.2).map Prod.fst).Nodup := by
      rw [keys_rrfAdd]
      exact nodup_firstOccAppend hnd c.1
    rw [ih _ hnd2, getVal_rrfAdd hnd, getVal]
    ring

theorem rrfScoresOf_eq_fold (k : Nat) (rankedLists : List (List (Nat × ℚ))) :
    rrfScoresOf k rankedLists
      = (rrfContribs k rankedLists).foldl (fun sc c => rrfAdd sc c.1 c.2) [] := by
  rw [rrfContribs, List.foldl_flatten, List.foldl_map]
  simp only [List.foldl_map]
  rfl

theorem getVal_of_mem : ∀ {sc : List (Nat × ℚ)}, (sc.map Prod.fst).Nodup →
    ∀ {p : Nat × ℚ}, p ∈ sc → getVal sc p.1 = p.2 := by
  intro sc
  induction sc with
  | nil => intro _ p hp; simp at hp
  | cons e rest ih =>
    intro hnd p hp
    simp only [List.map_cons, List.nodup_cons] at hnd
    rcases List.mem_cons.mp hp with rfl | hp
    · rw [getVal, if_pos rfl,
        getVal_eq_zero_of_not_mem hnd.1]
      ring
    · have hne : e.1 ≠ p.1 := by
        intro he
        exact hnd.1 (he ▸ List.mem_map.mpr ⟨p, hp, rfl⟩)
      rw [getVal, if_neg hne, ih hnd.2 hp]
      ring

theorem orderedInsert_filter_score (a : Nat × ℚ) (s : ℚ) :
    ∀ (m : List (Nat × ℚ)),
    (List.orderedInsert (fun x y : Nat × ℚ => y.2 ≤ x.2) a m).filter
        (fun p => p.2 = s)
      = if a.2 = s then a :: m.filter (fun p => p.2 = s)
        else m.filter (fun p => p.2 = s) := by
  intro m
  induction m with
  | nil =>
    by_cases ha : a.2 = s <;> simp [List.orderedInsert, List.filter, ha]
  | cons b l ih =>
    by_cases hr : b.2 ≤ a.2
    · rw [List.orderedInsert, if_pos hr]
      by_cases ha : a.2 = s <;> simp [List.filter_cons, ha]
    · rw [List.orderedInsert, if_neg hr]
      push_neg at hr
      by_cases ha : a.2 = s
      · have hb : ¬ b.2 = s := by
          intro hb
          rw [ha] at hr
          rw [hb] at hr
          exact lt_irrefl _ hr
        simp [List.filter_cons, ha, hb, ih]
      · simp [List.filter_cons, ha, ih]

theorem insertionSort_filter_score (s : ℚ) :
    ∀ (l : List (Nat × ℚ)),
    (List.insertionSort (fun x y : Nat × ℚ => y.2 ≤ x.2) l).filter
        (fun p => p.2 = s)
      = l.filter (fun p => p.2 = s) := by
  intro l
  induction l with
  | nil => rfl
  | cons a l ih =>
    rw [List.insertionSort, orderedInsert_filter_score, List.filter_cons]
    by_cases ha : a.2 = s <;> simp [ha, ih]

/-- C5 (as stated) is false: ties in the fused score are broken by dict
insertion order (first occurrence across the iterated lists), not by dense
score or document order — the fusion discards the `_score` component
entirely.  Doc 5 (dense score 0.1) and doc 2 (dense score 0.9) both fuse to
`1/61`, yet doc 5 is returned first because its list is iterated first,
although doc 2 has both the higher dense score and the earlier document
order. -/
theorem c5_counterexample :
    reciprocalRankFusion 60 [[(5, 1/10)], [(2, 9/10)]]
      = [(5, 1/61), (2, 1/61)] ∧
    (1 : ℚ)/10 < 9/10 ∧ (2 : Nat) < 5 := by
  have hscores : rrfScoresOf 60 [[(5, 1/10)], [(2, 9/10)]]
      = [(5, 1/61), (2, 1/61)] := by
    rw [rrfScoresOf]
    simp [rrfAccumList, rrfAdd, List.enum, List.enumFrom]
    norm_num
  refine ⟨?_, by norm_num, by decide⟩
  rw [reciprocalRankFusion, hscores]
  simp [List.insertionSort, List.orderedInsert]

/-- C5 amended: `reciprocal_rank_fusion` with `k = 60` assigns every returned
index the score `Σ 1/(60 + rank + 1)` summed over each of its occurrences in
the ranked lists (for each list containing the index once, this is the
claim's per-list sum); the result is sorted by that score descending; ties
between equal scores keep dict insertion order, i.e. the order of first
occurrence across the iterated lists (dense scores are ignored); and the
returned keys are exactly the distinct doc indices in first-occurrence
order. -/
theorem c5_rrf_fusion (rankedLists : List (List (Nat × ℚ))) :
    (∀ p ∈ reciprocalRankFusion 60 rankedLists,
        p.2 = rrfSpecScore 60 rankedLists p.1) ∧
    List.Sorted (fun a b : Nat × ℚ => b.2 ≤ a.2)
      (reciprocalRankFusion 60 rankedLists) ∧
    (∀ s : ℚ, (reciprocalRankFusion 60 rankedLists).filter (fun p => p.2 = s)
        = (rrfScoresOf 60 rankedLists).filter (fun p => p.2 = s)) ∧
    (rrfScoresOf 60 rankedLists).map Prod.fst
      = firstOccKeys (rrfContribs 60 rankedLists) := by
  have hnd : ((rrfScoresOf 60 rankedLists).map Prod.fst).Nodup := by
    rw [rrfScoresOf_eq_fold]
    exact nodup_keys_rrfFold _ [] (by simp)
  refine ⟨?_, ?_, ?_, ?_⟩
  · intro p hp
    have hmem : p ∈ rrfScoresOf 60 rankedLists :=
      (List.perm_insertionSort _ _).mem_iff.mp hp
    have h1 : getVal (rrfScoresOf 60 rankedLists) p.1 = p.2 :=
      getVal_of_mem hnd hmem
    have h2 : getVal (rrfScoresOf 60 rankedLists) p.1
        = rrfSpecScore 60 rankedLists p.1 := by
      rw [rrfScoresOf_eq_fold, getVal_rrfFold _ _ [] (by simp), rrfSpecScore]
      simp [getVal]
    rw [← h1, h2]
  · haveI : IsTotal (Nat × ℚ) (fun a b : Nat × ℚ => b.2 ≤ a.2) :=
      ⟨fun a b => le_total b.2 a.2⟩
    haveI : IsTrans (Nat × ℚ) (fun a b : Nat × ℚ => b.2 ≤ a.2) :=
      ⟨fun a b c hab hbc => le_trans hbc hab⟩
    exact List.sorted_insertionSort _ _
  · intro s
    exact insertionSort_filter_score s _
  · rw [rrfScoresOf_eq_fold, keys_rrfFold, firstOccKeys]
    rfl

/-- Witness for the amended C5 at a concrete family of ranked lists: the
score of each fused entry matches the occurrence sum. -/
theorem c5_rrf_fusion_witness :
    ((7, (1 : ℚ)/61) ∈ reciprocalRankFusion 60 [[(7, 1/2)]]) ∧
    ((1 : ℚ)/61 = rrfSpecScore 60 [[(7, 1/2)]] 7) ∧
    (reciprocalRankFusion 60 [[(7, 1/2)]]).filter (fun p => p.2 = 1/61)
      = (rrfScoresOf 60 [[(7, 1/2)]]).filter (fun p => p.2 = 1/61) := by
  have hmem : (7, (1 : ℚ)/61) ∈ reciprocalRankFusion 60 [[(7, 1/2)]] := by
    rw [reciprocalRankFusion, rrfScoresOf]
    simp [rrfAccumList, rrfAdd, List.enum, List.enumFrom,
      List.insertionSort, List.orderedInsert]
    norm_num
  exact ⟨hmem, (c5_rrf_fusion [[(7, 1/2)]]).1 (7, 1/61) hmem,
    (c5_rrf_fusion [[(7, 1/2)]]).2.2.1 (1/61)⟩

/-! ### Cache scan lemmas (C3 machinery) -/

theorem lookupScan_good {ρ : Type} (qv : List ℚ) (ttl now : Int)
    (cache : List (CacheEntry ρ)) :
    ∀ (l : List (CacheEntry ρ)) (bm : Option (CacheEntry ρ)) (ms : ℚ),
      (∀ el ∈ l, el ∈ cache) →
      (∀ e, bm = some e → e ∈ cache ∧ cacheExpired ttl now e = false ∧
        ms = dotQ e.query_embedding qv) →
      ∀ e, (lookupScan qv ttl now l (bm, ms)).1 = some e →
        e ∈ cache ∧ cacheExpired ttl now e = false ∧
        (lookupScan qv ttl now l (bm, ms)).2 = dotQ e.query_embedding qv := by
  intro l
  induction l with
  | nil =>
    intro bm ms _ hacc e he
    simp only [lookupScan] at he ⊢
    obtain ⟨h1, h2, h3⟩ := hacc e he
    exact ⟨h1, h2, h3⟩
  | cons x rest ih =>
    intro bm ms hsub hacc e he
    by_cases hexp : cacheExpired ttl now x = true
    · rw [lookupScan, if_pos hexp] at he ⊢
      exact ih bm ms (fun el hel => hsub el (by simp [hel])) hacc e he
    · rw [lookupScan, if_neg hexp] at he ⊢
      simp only [] at he ⊢
      by_cases hgt : dotQ x.query_embedding qv > ms
      · rw [if_pos hgt] at he ⊢
        refine ih _ _ (fun el hel => hsub el (by simp [hel])) ?_ e he
        intro e2 he2
        rw [← Option.some.inj he2]
        exact ⟨hsub x (by simp), by simpa using hexp, rfl⟩
      · rw [if_neg hgt] at he ⊢
        exact ih bm ms (fun el hel => hsub el (by simp [hel])) hacc e he

theorem lookupScan_stable {ρ : Type} (qv : List ℚ) (ttl now : Int) :
    ∀ (l : List (CacheEntry ρ)) (e : CacheEntry ρ),
      (∀ e2 ∈ l, cacheExpired ttl now e2 = true ∨
        dotQ e2.query_embedding qv ≤ dotQ e.query_embedding qv) →
      lookupScan qv ttl now l (some e, dotQ e.query_embedding qv)
        = (some e, dotQ e.query_embedding qv) := by
  intro l
  induction l with
  | nil => intro e _; rfl
  | cons x rest ih =>
    intro e hdom
    by_cases hexp : cacheExpired ttl now x = true
    · rw [lookupScan, if_pos hexp]
      exact ih e (fun e2 h2 => hdom e2 (by simp [h2]))
    · rw [lookupScan, if_neg hexp]
      simp only []
      have hle : dotQ x.query_embedding qv ≤ dotQ e.query_embedding qv := by
        rcases hdom x (by simp) with h | h
        · exact absurd h hexp
        · exact h
      rw [if_neg (not_lt.mpr hle)]
      exact ih e (fun e2 h2 => hdom e2 (by simp [h2]))

theorem lookupScan_dominant {ρ : Type} (qv : List ℚ) (ttl now : Int) :
    ∀ (l : List (CacheEntry ρ)) (e : CacheEntry ρ) (bm : Option (CacheEntry ρ))
      (ms : ℚ),
      e ∈ l → cacheExpired ttl now e = false →
      ms < dotQ e.query_embedding qv →
      (∀ e2 ∈ l, e2 ≠ e → cacheExpired ttl now e2 = true ∨
        dotQ e2.query_embedding qv < dotQ e.query_embedding qv) →
      lookupScan qv ttl now l (bm, ms)
        = (some e, dotQ e.query_embedding qv) := by
  intro l
  induction l with
  | nil => intro e bm ms he; simp at he
  | cons x rest ih =>
    intro e bm ms he hfresh hms hdom
    by_cases hx : x = e
    · subst hx
      rw [lookupScan, if_neg (by simp [hfresh])]
      simp only []
      rw [if_pos hms]
      refine lookupScan_stable qv ttl now rest x ?_
      intro e2 h2
      by_cases he2 : e2 = x
      · subst he2; right; exact le_refl _
      · rcases hdom e2 (by simp [h2]) he2 with h | h
        · left; exact h
        · right; exact le_of_lt h
    · have he' : e ∈ rest := by
        rcases List.mem_cons.mp he with h | h
        · exact absurd h.symm hx
        · exact h
      by_cases hexp : cacheExpired ttl now x = true
      · rw [lookupScan, if_pos hexp]
        exact ih e bm ms he' hfresh hms
          (fun e2 h2 hne => hdom e2 (by simp [h2]) hne)
      · rw [lookupScan, if_neg hexp]
        simp only []
        have hxlt : dotQ x.query_embedding qv < dotQ e.query_embedding qv := by
          rcases hdom x (by simp) hx with h | h
          · exact absurd h hexp
          · exact h
        by_cases hgt : dotQ x.query_embedding qv > ms
        · rw [if_pos hgt]
          exact ih e _ _ he' hfresh hxlt
            (fun e2 h2 hne => hdom e2 (by simp [h2]) hne)
        · rw [if_neg hgt]
          exact ih e bm ms he' hfresh hms
            (fun e2 h2 hne => hdom e2 (by simp [h2]) hne)

/-- C3 (as stated) is false: `lookup` returns the response of the entry with
the *largest* similarity above the threshold, not the response of the queried
entry.  With `add("q1", [1,0], "a1")` then `add("q2", [24/25, 7/25], "a2")`
and a probe equal to `[24/25, 7/25]`, the probe is within the 0.92 threshold
of `q1` (similarity 24/25 = 0.96) and both entries are fresh, yet the lookup
returns `a2`. -/
theorem c3_counterexample :
    SemanticCache.lookup
        (SemanticCache.add
          (SemanticCache.add ([] : List (CacheEntry String))
            "q1" [1, 0] "a1" 0)
          "q2" [24/25, 7/25] "a2" 0)
        [24/25, 7/25] none 24 (92/100) 0
      = some ⟨"a2", 1, "q2"⟩ ∧
    92/100 ≤ dotQ [1, 0] [24/25, 7/25] ∧
    ("a2" : String) ≠ "a1" := by
  refine ⟨?_, by rw [dotQ]; norm_num, by decide⟩
  have hcache : SemanticCache.add
      (SemanticCache.add ([] : List (CacheEntry String)) "q1" [1, 0] "a1" 0)
      "q2" [24/25, 7/25] "a2" 0
      = [⟨"q1", [1, 0], "a1", 0⟩, ⟨"q2", [24/25, 7/25], "a2", 0⟩] := by
    rfl
  have h1 : dotQ [1, 0] [24/25, 7/25] = 24/25 := by rw [dotQ]; norm_num
  have h2 : dotQ [24/25, 7/25] [24/25, 7/25] = 1 := by rw [dotQ]; norm_num
  rw [hcache, SemanticCache.lookup, if_neg (by simp)]
  simp only []
  rw [lookupScan, if_neg (show ¬ (cacheExpired 24 0
    (⟨"q1", [1, 0], "a1", 0⟩ : CacheEntry String) = true) from by decide)]
  simp only [h1]
  rw [if_pos (show (24 : ℚ)/25 > -1 from by norm_num)]
  rw [lookupScan, if_neg (show ¬ (cacheExpired 24 0
    (⟨"q2", [24/25, 7/25], "a2", 0⟩ : CacheEntry String) = true) from by decide)]
  simp only [h2]
  rw [if_pos (show (1 : ℚ) > 24/25 from by norm_num)]
  rw [lookupScan]
  simp only []
  rw [if_pos (show (1 : ℚ) ≥ 92/100 from by norm_num)]

/-- C3 amended: (1) `lookup` never returns an expired entry — every hit is
backed by an entry of the cache whose age is within the TTL, and carries that
entry's response, query text and similarity, itself at least the 0.92
threshold; (2) a fresh entry whose similarity to the probe is at least 0.92
and strictly larger than that of every other fresh entry (in particular the
entry just added for `q`, probed with a `q'` no other entry matches as well)
is returned, with its stored response; (3) `add` appends the new entry at the
tail of the cache. -/
theorem c3_cache_semantics {ρ : Type} :
    (∀ (cache : List (CacheEntry ρ)) (qv : List ℚ) (ttl now : Int)
       (hit : CacheHit ρ),
      SemanticCache.lookup cache qv none ttl (92/100) now = some hit →
      ∃ e, e ∈ cache ∧ cacheExpired ttl now e = false ∧
        hit.response = e.response ∧ hit.original_query = e.query_text ∧
        hit.similarity = dotQ e.query_embedding qv ∧
        92/100 ≤ hit.similarity) ∧
    (∀ (cache : List (CacheEntry ρ)) (e : CacheEntry ρ) (qv : List ℚ)
       (ttl now : Int),
      e ∈ cache → cacheExpired ttl now e = false →
      92/100 ≤ dotQ e.query_embedding qv →
      (∀ e2 ∈ cache, e2 ≠ e → cacheExpired ttl now e2 = true ∨
        dotQ e2.query_embedding qv < dotQ e.query_embedding qv) →
      SemanticCache.lookup cache qv none ttl (92/100) now
        = some ⟨e.response, dotQ e.query_embedding qv, e.query_text⟩) ∧
    (∀ (cache : List (CacheEntry ρ)) (q : String) (qv : List ℚ) (resp : ρ)
       (now : Int),
      (SemanticCache.add cache q qv resp now).getLast?
        = some ⟨q, qv, resp, now⟩) := by
  refine ⟨?_, ?_, ?_⟩
  · intro cache qv ttl now hit hlook
    rw [SemanticCache.lookup] at hlook
    by_cases hemp : cache.isEmpty
    · rw [if_pos hemp] at hlook; exact absurd hlook (by simp)
    · rw [if_neg hemp] at hlook
      simp only [] at hlook
      cases hscan : lookupScan qv ttl now cache (none, -1) with
      | mk bm ms =>
        rw [hscan] at hlook
        cases bm with
        | none => simp only [] at hlook; exact absurd hlook (by simp)
        | some e =>
          simp only [] at hlook
          by_cases hth : ms ≥ 92/100
          · rw [if_pos hth] at hlook
            have hgood := lookupScan_good qv ttl now cache cache none (-1)
              (fun el hel => hel) (fun e2 he2 => by simp at he2) e
              (by rw [hscan])
            obtain ⟨hmem, hfresh, hsim⟩ := hgood
            rw [hscan] at hsim
            obtain rfl : (⟨e.response, ms, e.query_text⟩ : CacheHit ρ) = hit :=
              Option.some.inj hlook
            exact ⟨e, hmem, hfresh, rfl, rfl, hsim, hth⟩
          · rw [if_neg hth] at hlook; exact absurd hlook (by simp)
  · intro cache e qv ttl now hmem hfresh hth hdom
    rw [SemanticCache.lookup,
      if_neg (by intro h; rw [List.isEmpty_iff.mp h] at hmem; simp at hmem)]
    simp only []
    rw [lookupScan_dominant qv ttl now cache e none (-1) hmem hfresh
      (lt_of_lt_of_le (by norm_num) hth) hdom]
    simp only []
    rw [if_pos hth]
  · intro cache q qv resp now
    rw [SemanticCache.add]
    exact List.getLast?_concat _

/-- Witness for the amended C3: a freshly added lone entry is returned for a
probe identical to its embedding, and the hit preserves its response. -/
theorem c3_cache_semantics_witness :
    SemanticCache.lookup [(⟨"q", [1], "a", 0⟩ : CacheEntry String)]
        [1] none 24 (92/100) 0
      = some ⟨"a", dotQ [1] [1], "q"⟩ ∧
    (SemanticCache.add ([] : List (CacheEntry String)) "q" [1] "a" 0).getLast?
      = some ⟨"q", [1], "a", 0⟩ := by
  constructor
  · refine (c3_cache_semantics.2.1 [⟨"q", [1], "a", 0⟩] ⟨"q", [1], "a", 0⟩
      [1] 24 0 (by simp) (by decide) ?_ ?_)
    · rw [dotQ]; norm_num
    · intro e2 h2 hne
      rcases List.mem_singleton.mp h2 with rfl
      exact absurd rfl hne
  · exact c3_cache_semantics.2.2 [] "q" [1] "a" 0

/-! ### Chunk-map lemmas (C4 machinery) -/

theorem mem_of_lookupA {m : List (String × Chunk)} {k : String} {c : Chunk}
    (h : lookupA m k = some c) : (k, c) ∈ m := by
  unfold lookupA at h
  cases hf : m.find? (fun p => p.1 = k) with
  | none => rw [hf] at h; exact absurd h (by simp)
  | some p0 =>
    rw [hf] at h
    have hc : p0.2 = c := Option.some.inj h
    have hp0 : p0 ∈ m := List.mem_of_find?_eq_some hf
    have hpk : p0.1 = k := by simpa using List.find?_some hf
    have hkc : (k, c) = p0 := by rw [← hpk, ← hc]
    rw [hkc]
    exact hp0

theorem lookupA_of_mem_keys {m : List (String × Chunk)} {k : String}
    (h : k ∈ m.map Prod.fst) : ∃ c, lookupA m k = some c := by
  induction m with
  | nil => simp at h
  | cons p rest ih =>
    by_cases hp : p.1 = k
    · exact ⟨p.2, by simp [lookupA, List.find?_cons_of_pos, hp]⟩
    · have h2 : k ∈ rest.map Prod.fst := by
        have h' : k ∈ p.1 :: rest.map Prod.fst := by simpa using h
        rcases List.mem_cons.mp h' with h1 | h1
        · exact absurd h1.symm hp
        · exact h1
      obtain ⟨c, hc⟩ := ih h2
      refine ⟨c, ?_⟩
      rw [lookupA, List.find?_cons_of_neg _ (by simpa using hp)]
      exact hc

theorem keys_appendChild (m : List (String × Chunk)) (pk cid : String) :
    (appendChild m pk cid).map Prod.fst = m.map Prod.fst := by
  rw [appendChild, List.map_map]
  refine List.map_congr_left ?_
  intro p _
  by_cases h : p.1 = pk <;> simp [h]

theorem pass2step_keys (m : List (String × Chunk)) (key : String) :
    (pass2step m key).map Prod.fst = m.map Prod.fst := by
  unfold pass2step
  split
  · rfl
  · split
    · rfl
    · split
      · exact keys_appendChild _ _ _
      · rfl

theorem childOk_updateChildren {K0 : List String} {c : Chunk}
    (hc : ChildOk K0 c) {cid : String} (hcid : cid ∈ K0) :
    ChildOk K0 (updateChildren c cid) := by
  obtain ⟨hnd, hsub⟩ := hc
  unfold updateChildren
  by_cases hmem : cid ∈ c.children_ids.getD []
  · simp only [hmem, if_true]
    exact ⟨by simpa using hnd, by simpa using hsub⟩
  · simp only [hmem, if_false]
    constructor
    · simp only [Option.getD_some]
      refine List.Nodup.append hnd (by simp) ?_
      intro x hx hx2
      simp only [List.mem_singleton] at hx2
      subst hx2
      exact hmem hx
    · intro x hx
      simp only [Option.getD_some, List.mem_append,
        List.mem_singleton] at hx
      rcases hx with hx | rfl
      · exact hsub x hx
      · exact hcid

theorem pass2step_childOk {K0 : List String} {m : List (String × Chunk)}
    {key : String} (hk : key ∈ K0)
    (hinv : ∀ p ∈ m, ChildOk K0 p.2) :
    ∀ p ∈ pass2step m key, ChildOk K0 p.2 := by
  unfold pass2step
  split
  · exact hinv
  · split
    · exact hinv
    · split
      · rename_i o pid hpid hcond
        intro p hp
        rw [appendChild] at hp
        simp only [List.mem_map] at hp
        obtain ⟨p1, hp1, rfl⟩ := hp
        by_cases hpk : p1.1 = pid
        · rw [if_pos hpk]
          exact childOk_updateChildren (hinv p1 hp1) hk
        · rw [if_neg hpk]
          exact hinv p1 hp1
      · exact hinv

theorem pass2_fold_ok (K0 : List String) :
    ∀ (ks : List String) (m : List (String × Chunk)),
      m.map Prod.fst = K0 → (∀ k ∈ ks, k ∈ K0) →
      (∀ p ∈ m, ChildOk K0 p.2) →
      (ks.foldl pass2step m).map Prod.fst = K0 ∧
      ∀ p ∈ ks.foldl pass2step m, ChildOk K0 p.2 := by
  intro ks
  induction ks with
  | nil => intro m hkeys _ hinv; exact ⟨hkeys, hinv⟩
  | cons k rest ih =>
    intro m hkeys hks hinv
    rw [List.foldl_cons]
    exact ih (pass2step m k)
      (by rw [pass2step_keys]; exact hkeys)
      (fun k2 hk2 => hks k2 (by simp [hk2]))
      (pass2step_childOk (hks k (by simp)) hinv)

theorem pass1_children_none (chunks : List Chunk)
    (hnoch : ∀ c ∈ chunks, c.children_ids = none) :
    ∀ p ∈ chunkMapPass1 chunks, p.2.children_ids = none := by
  rw [chunkMapPass1]
  suffices h : ∀ (l : List Chunk), (∀ c ∈ l, c.children_ids = none) →
      ∀ (acc : List (String × Chunk)),
      (∀ p ∈ acc, p.2.children_ids = none) →
      ∀ p ∈ l.foldl
        (fun m c => if truthyOpt (chunkKeyId c) then
          insertChunk m ((chunkKeyId c).getD "") c else m) acc,
        p.2.children_ids = none by
    exact h chunks hnoch [] (by simp)
  intro l
  induction l with
  | nil => intro _ acc hacc p hp; exact hacc p hp
  | cons c rest ih =>
    intro hl acc hacc p hp
    rw [List.foldl_cons] at hp
    refine ih (fun c2 hc2 => hl c2 (by simp [hc2])) _ ?_ p hp
    intro q hq
    by_cases ht : truthyOpt (chunkKeyId c) = true
    · rw [if_pos ht] at hq
      rw [insertChunk] at hq
      by_cases hany : acc.any (fun p => p.1 = (chunkKeyId c).getD "") = true
      · rw [if_pos hany] at hq
        simp only [List.mem_map] at hq
        obtain ⟨q1, hq1, rfl⟩ := hq
        by_cases hqk : q1.1 = (chunkKeyId c).getD ""
        · rw [if_pos hqk]
          exact hl c (by simp)
        · rw [if_neg hqk]
          exact hacc q1 hq1
      · rw [if_neg hany] at hq
        rcases List.mem_append.mp hq with hmem | hmem
        · exact hacc q hmem
        · simp only [List.mem_singleton] at hmem
          subst hmem
          exact hl c (by simp)
    · simp only [Bool.not_eq_true] at ht
      rw [ht] at hq
      simp only [Bool.false_eq_true, if_false] at hq
      exact hacc q hq

/-- C4 (as stated) is false: `_build_chunk_map` performs no validation.  On
a chunk list with a two-cycle (`a.parent = b`, `b.parent = a`) and a chunk
whose parent id `ghost` resolves to nothing, the build completes and returns
a map holding all three chunks with their cyclic/dangling parent links
intact. -/
theorem c4_counterexample :
    (buildChunkMap
        [{ id := some "a", parent_id := some "b" },
         { id := some "b", parent_id := some "a" },
         { id := some "c", parent_id := some "ghost" }]).map Prod.fst
      = ["a", "b", "c"] ∧
    (lookupA (buildChunkMap
        [{ id := some "a", parent_id := some "b" },
         { id := some "b", parent_id := some "a" },
         { id := some "c", parent_id := some "ghost" }]) "a").map
      Chunk.parent_id = some (some "b") ∧
    (lookupA (buildChunkMap
        [{ id := some "a", parent_id := some "b" },
         { id := some "b", parent_id := some "a" },
         { id := some "c", parent_id := some "ghost" }]) "b").map
      Chunk.parent_id = some (some "a") ∧
    (lookupA (buildChunkMap
        [{ id := some "a", parent_id := some "b" },
         { id := some "b", parent_id := some "a" },
         { id := some "c", parent_id := some "ghost" }]) "c").map
      Chunk.parent_id = some (some "ghost") ∧
    lookupA (buildChunkMap
        [{ id := some "a", parent_id := some "b" },
         { id := some "b", parent_id := some "a" },
         { id := some "c", parent_id := some "ghost" }]) "ghost" = none := by
  refine ⟨?_, ?_, ?_, ?_, ?_⟩ <;> decide

/-- C4 amended: the build never aborts — it is a total function that accepts
cyclic and dangling `parent_id`s unchanged; a dangling parent simply
contributes no child edge.  What the build does guarantee is that every id
it appends to a `children_ids` list is a key of the resulting map: when the
ingested chunks carry no pre-existing `children_ids`, every recorded child
link resolves and each `children_ids` list is duplicate-free. -/
theorem c4_build_no_validation (chunks : List Chunk)
    (hnoch : ∀ c ∈ chunks, c.children_ids = none) :
    ∀ k c, lookupA (buildChunkMap chunks) k = some c →
      (c.children_ids.getD []).Nodup ∧
      ∀ cid ∈ c.children_ids.getD [],
        ∃ c2, lookupA (buildChunkMap chunks) cid = some c2 := by
  have h0 : ∀ p ∈ chunkMapPass1 chunks,
      ChildOk ((chunkMapPass1 chunks).map Prod.fst) p.2 := by
    intro p hp
    rw [ChildOk, pass1_children_none chunks hnoch p hp]
    simp
  obtain ⟨hkeys, hinv⟩ := pass2_fold_ok ((chunkMapPass1 chunks).map Prod.fst)
    ((chunkMapPass1 chunks).map Prod.fst) (chunkMapPass1 chunks)
    rfl (fun k hk => hk) h0
  intro k c hlk
  have hmem : (k, c) ∈ buildChunkMap chunks := mem_of_lookupA hlk
  rw [buildChunkMap, chunkMapPass2] at hmem
  have hok := hinv (k, c) hmem
  refine ⟨hok.1, ?_⟩
  intro cid hcid
  have hcidK : cid ∈ (buildChunkMap chunks).map Prod.fst := by
    rw [buildChunkMap, chunkMapPass2, hkeys]
    exact hok.2 cid hcid
  exact lookupA_of_mem_keys hcidK

/-- Witness for the amended C4: a well-formed parent/child pair builds a map
whose recorded child link resolves. -/
theorem c4_build_no_validation_witness :
    ((⟨some "p", none, none, some ["c"], "", none, none, none, none, none,
        none, none, none, none, none⟩ :
        Chunk).children_ids.getD []).Nodup ∧
    ∀ cid ∈ ((⟨some "p", none, none, some ["c"], "", none, none, none, none,
        none, none, none, none, none, none⟩ : Chunk).children_ids.getD []),
      ∃ c2, lookupA (buildChunkMap
        [{ id := some "p" }, { id := some "c", parent_id := some "p" }])
        cid = some c2 := by
  exact c4_build_no_validation
    [{ id := some "p" }, { id := some "c", parent_id := some "p" }]
    (by intro c hc; rcases List.mem_cons.mp hc with rfl | hc
        · rfl
        · rcases List.mem_cons.mp hc with rfl | hc
          · rfl
          · simp at hc)
    "p"
    ⟨some "p", none, none, some ["c"], "", none, none, none, none, none,
      none, none, none, none, none⟩
    (by decide)

/-! ### Theorems for C7 and C8 -/

/-- C7: `SupervisorAgent.process` never propagates an exception: it is a total
function of the workflow outcome.  If the graph run raises with message `e`,
the returned record carries the fixed user-safe apology as its `response` and
preserves `e` in its `error` field.  On success it returns the final state's
`response`, `intent` and `sources` (with the dict-lookup defaults of the
source when a key is absent). -/
theorem c7_supervisor_catches_errors {σ : Type} (q : String)
    (outcome : Except String (FinalState σ)) :
    (∀ e, outcome = Except.error e →
      (supervisorProcess q outcome).response = some supervisorApology ∧
      (supervisorProcess q outcome).error = some e ∧
      (supervisorProcess q outcome).query = q) ∧
    (∀ s, outcome = Except.ok s →
      (supervisorProcess q outcome).intent = s.intent.join ∧
      (supervisorProcess q outcome).sources = s.sources.getD [] ∧
      (supervisorProcess q outcome).error = s.error.join ∧
      ∀ r, s.response = some r → (supervisorProcess q outcome).response = r) := by
  constructor
  · intro e he
    subst he
    exact ⟨rfl, rfl, rfl⟩
  · intro s hs
    subst hs
    refine ⟨rfl, rfl, rfl, ?_⟩
    intro r hr
    simp [supervisorProcess, hr]

/-- Witness for C7 at concrete outcomes: a failing run yields the apology and
keeps the error text; a successful run forwards the state's fields. -/
theorem c7_supervisor_catches_errors_witness :
    (supervisorProcess (σ := String) "q" (Except.error "boom")).response
        = some supervisorApology ∧
    (supervisorProcess (σ := String) "q" (Except.error "boom")).error
        = some "boom" ∧
    (supervisorProcess (σ := String) "q"
        (Except.ok ⟨some (some "ans"), some (some "intent"), some ["s1"],
                    some none⟩)).response = some "ans" := by
  refine ⟨?_, ?_, ?_⟩
  · exact ((c7_supervisor_catches_errors "q" (Except.error "boom")).1
      "boom" rfl).1
  · exact ((c7_supervisor_catches_errors "q" (Except.error "boom")).1
      "boom" rfl).2.1
  · exact ((c7_supervisor_catches_errors "q"
      (Except.ok ⟨some (some "ans"), some (some "intent"), some ["s1"],
                  some none⟩)).2 _ rfl).2.2.2 (some "ans") rfl

/-- C8 (as stated) is false: the spec lists `bm25_k1`, `bm25_b`, `rrf_k`,
`dedup_threshold` and `parent_context_length` among the exposed tunables, but
none of them is a field of the `Settings` class. -/
theorem c8_counterexample :
    ¬ ("bm25_k1" ∈ Settings.fieldNames) ∧
    ¬ ("bm25_b" ∈ Settings.fieldNames) ∧
    ¬ ("rrf_k" ∈ Settings.fieldNames) ∧
    ¬ ("dedup_threshold" ∈ Settings.fieldNames) ∧
    ¬ ("parent_context_length" ∈ Settings.fieldNames) := by
  refine ⟨?_, ?_, ?_, ?_, ?_⟩ <;> decide

/-- C8 amended: the tunables that `Settings` does expose carry the stated
defaults — `rag_top_k = 5`, `reranker_top_k = 3`,
`cache_similarity_threshold = 0.92`, `cache_ttl_hours = 24`,
`router_similarity_threshold = 0.85`, `sql_max_retries = 3`,
`sql_few_shot_examples = 5`, `embedding_dimension = 1024` — while `bm25_k1`,
`bm25_b`, `rrf_k`, `dedup_threshold` and `parent_context_length` are not
fields of the class at all. -/
theorem c8_config_defaults :
    defaultSettings.rag_top_k = 5 ∧
    defaultSettings.reranker_top_k = 3 ∧
    defaultSettings.cache_similarity_threshold = 92/100 ∧
    defaultSettings.cache_ttl_hours = 24 ∧
    defaultSettings.router_similarity_threshold = 85/100 ∧
    defaultSettings.sql_max_retries = 3 ∧
    defaultSettings.sql_few_shot_examples = 5 ∧
    defaultSettings.embedding_dimension = 1024 ∧
    ("rag_top_k" ∈ Settings.fieldNames ∧
     "reranker_top_k" ∈ Settings.fieldNames ∧
     "cache_similarity_threshold" ∈ Settings.fieldNames ∧
     "cache_ttl_hours" ∈ Settings.fieldNames ∧
     "router_similarity_threshold" ∈ Settings.fieldNames ∧
     "sql_max_retries" ∈ Settings.fieldNames ∧
     "sql_few_shot_examples" ∈ Settings.fieldNames ∧
     "embedding_dimension" ∈ Settings.fieldNames) ∧
    (¬ ("bm25_k1" ∈ Settings.fieldNames) ∧
     ¬ ("bm25_b" ∈ Settings.fieldNames) ∧
     ¬ ("rrf_k" ∈ Settings.fieldNames) ∧
     ¬ ("dedup_threshold" ∈ Settings.fieldNames) ∧
     ¬ ("parent_context_length" ∈ Settings.fieldNames)) := by
  refine ⟨rfl, rfl, by norm_num [defaultSettings], rfl,
    by norm_num [defaultSettings], rfl, rfl, rfl, ?_, ?_⟩
  · refine ⟨?_, ?_, ?_, ?_, ?_, ?_, ?_, ?_⟩ <;> decide
  · refine ⟨?_, ?_, ?_, ?_, ?_⟩ <;> decide

/-! ### Hierarchy lemmas (C2 machinery) -/

theorem getDepth_le_five (c : Chunk) : getDepth c ≤ 5 := by
  unfold getDepth
  repeat' split
  all_goals omega

theorem truthy_eq_some (o : Option String) (h : truthyOpt o = true) :
    o = some (o.getD "") := by
  cases o with
  | none => simp [truthyOpt] at h
  | some v => rfl

theorem ancestorWalk_iff_chain (cm : List (String × Chunk))
    (ancId : Option String) :
    ∀ fuel cur, ancestorWalk cm ancId fuel cur = true ↔
      ∃ s, ancId = some s ∧ s ∈ chainIds cm fuel cur := by
  intro fuel
  induction fuel with
  | zero => intro cur; simp [ancestorWalk, chainIds]
  | succ f ih =>
    intro cur
    by_cases ht : truthyOpt cur.parent_id = true
    · by_cases ha : ancId = some (cur.parent_id.getD "")
      · simp only [ancestorWalk, chainIds, ht, if_true, ha, if_pos rfl]
        constructor
        · intro _
          exact ⟨_, rfl, List.mem_cons_self _ _⟩
        · intro _
          trivial
      · cases hlk : lookupA cm (cur.parent_id.getD "") with
        | none =>
          simp only [ancestorWalk, chainIds, ht, if_true, hlk, if_neg ha]
          constructor
          · intro h; exact absurd h (by simp)
          · rintro ⟨s, hs, hmem⟩
            simp only [List.mem_cons, List.not_mem_nil, or_false] at hmem
            exact absurd (hmem ▸ hs) ha
        | some next =>
          simp only [ancestorWalk, chainIds, ht, if_true, hlk, if_neg ha]
          rw [ih next]
          constructor
          · rintro ⟨s, hs, hmem⟩
            exact ⟨s, hs, List.mem_cons_of_mem _ hmem⟩
          · rintro ⟨s, hs, hmem⟩
            rcases List.mem_cons.mp hmem with rfl | hmem
            · exact absurd hs ha
            · exact ⟨s, hs, hmem⟩
    · rw [Bool.not_eq_true] at ht
      simp [ancestorWalk, chainIds, ht]

theorem chain_sound {cm : List (String × Chunk)} :
    ∀ fuel cur s, s ∈ chainIds cm fuel cur → AncId cm cur s := by
  intro fuel
  induction fuel with
  | zero => intro cur s h; simp [chainIds] at h
  | succ f ih =>
    intro cur s h
    by_cases ht : truthyOpt cur.parent_id = true
    · simp only [chainIds, ht, if_true] at h
      rcases List.mem_cons.mp h with rfl | h2
      · exact AncId.parent cur _ ht (truthy_eq_some _ ht)
      · cases hlk : lookupA cm (cur.parent_id.getD "") with
        | none => rw [hlk] at h2; simp at h2
        | some next =>
          rw [hlk] at h2
          exact AncId.step cur _ next s ht (truthy_eq_some _ ht) hlk (ih next s h2)
    · rw [Bool.not_eq_true] at ht
      simp [chainIds, ht] at h

theorem depthConsistent_step {cm : List (String × Chunk)}
    (h : depthConsistentB cm = true) {k : String} {c : Chunk} {pid : String}
    {pc : Chunk} (hp : (k, c) ∈ cm) (hpid : c.parent_id = some pid)
    (hlk : lookupA cm pid = some pc) : getDepth pc < getDepth c := by
  have h2 := List.all_eq_true.mp h (k, c) hp
  unfold depthStepB at h2
  rw [hpid] at h2
  simp only [Option.getD_some] at h2
  rw [hlk] at h2
  simp only [Option.map_some', Option.getD_some] at h2
  exact of_decide_eq_true h2

theorem registered_spec {cm : List (String × Chunk)} {c : Chunk}
    (h : registeredB cm c = true) :
    ∃ s, chunkKeyId c = some s ∧ lookupA cm s = some c := by
  unfold registeredB at h
  rw [Bool.and_eq_true] at h
  obtain ⟨h1, h2⟩ := h
  exact ⟨(chunkKeyId c).getD "", of_decide_eq_true h1, of_decide_eq_true h2⟩

theorem ancId_depth_lt {cm : List (String × Chunk)}
    (hdc : depthConsistentB cm = true) :
    ∀ {cur : Chunk} {s : String}, AncId cm cur s →
      ∀ {a : Chunk}, InMap cm cur → lookupA cm s = some a →
      getDepth a < getDepth cur := by
  intro cur s h
  induction h with
  | parent cur pid ht hpid =>
    intro a hin hs
    obtain ⟨k, hk⟩ := hin
    exact depthConsistent_step hdc (mem_of_lookupA hk) hpid hs
  | step cur pid next s ht hpid hlk hanc ih =>
    intro a hin hs
    obtain ⟨k, hk⟩ := hin
    have h1 : getDepth next < getDepth cur :=
      depthConsistent_step hdc (mem_of_lookupA hk) hpid hlk
    have h2 : getDepth a < getDepth next := ih ⟨pid, hlk⟩ hs
    omega

theorem ancId_trans {cm : List (String × Chunk)} :
    ∀ {cur : Chunk} {s : String}, AncId cm cur s →
      ∀ {c : Chunk} {t : String}, lookupA cm s = some c → AncId cm c t →
      AncId cm cur t := by
  intro cur s h
  induction h with
  | parent cur pid ht hpid =>
    intro c t hs h2
    exact AncId.step cur pid c t ht hpid hs h2
  | step cur pid next s ht hpid hlk hanc ih =>
    intro c t hs h2
    exact AncId.step cur pid next t ht hpid hlk (ih hs h2)

theorem chain_complete {cm : List (String × Chunk)}
    (hdc : depthConsistentB cm = true) :
    ∀ {cur : Chunk} {s : String}, AncId cm cur s →
      ∀ {a : Chunk}, lookupA cm s = some a → InMap cm cur →
      ∀ fuel, getDepth cur ≤ fuel → s ∈ chainIds cm fuel cur := by
  intro cur s h
  induction h with
  | parent cur pid ht hpid =>
    intro a hs hin fuel hf
    obtain ⟨k, hk⟩ := hin
    have hlt := depthConsistent_step hdc (mem_of_lookupA hk) hpid hs
    cases fuel with
    | zero => exact absurd hf (by omega)
    | succ f =>
      simp only [chainIds, ht, if_true]
      have : cur.parent_id.getD "" = pid := by rw [hpid]; rfl
      rw [this]
      exact List.mem_cons_self _ _
  | step cur pid next s ht hpid hlk hanc ih =>
    intro a hs hin fuel hf
    obtain ⟨k, hk⟩ := hin
    have h1 : getDepth next < getDepth cur :=
      depthConsistent_step hdc (mem_of_lookupA hk) hpid hlk
    cases fuel with
    | zero => exact absurd hf (by omega)
    | succ f =>
      have hnext : s ∈ chainIds cm f next := ih hs ⟨pid, hlk⟩ f (by omega)
      simp only [chainIds, ht, if_true]
      have hgd : cur.parent_id.getD "" = pid := by rw [hpid]; rfl
      rw [hgd, hlk]
      exact List.mem_cons_of_mem _ hnext

theorem chain_mem_rel {cm : List (String × Chunk)} :
    ∀ fuel cur s t, s ∈ chainIds cm fuel cur → t ∈ chainIds cm fuel cur →
      s = t ∨ (∃ cs, lookupA cm s = some cs ∧ AncId cm cs t) ∨
        (∃ ct, lookupA cm t = some ct ∧ AncId cm ct s) := by
  intro fuel
  induction fuel with
  | zero => intro cur s t hs _; simp [chainIds] at hs
  | succ f ih =>
    intro cur s t hs ht2
    by_cases htr : truthyOpt cur.parent_id = true
    · simp only [chainIds, htr, if_true] at hs ht2
      cases hlk : lookupA cm (cur.parent_id.getD "") with
      | none =>
        rw [hlk] at hs ht2
        simp only [List.mem_cons, List.not_mem_nil, or_false] at hs ht2
        exact Or.inl (hs.trans ht2.symm)
      | some next =>
        rw [hlk] at hs ht2
        rcases List.mem_cons.mp hs with rfl | hs2
        · rcases List.mem_cons.mp ht2 with rfl | ht3
          · exact Or.inl rfl
          · exact Or.inr (Or.inl ⟨next, hlk, chain_sound f next t ht3⟩)
        · rcases List.mem_cons.mp ht2 with rfl | ht3
          · exact Or.inr (Or.inr ⟨next, hlk, chain_sound f next s hs2⟩)
          · exact ih next s t hs2 ht3
    · rw [Bool.not_eq_true] at htr
      simp [chainIds, htr] at hs

theorem isAncestor_anc {cm : List (String × Chunk)} {a d : Chunk} {s : String}
    (hs : chunkKeyId a = some s) (h : isAncestor cm a d = true) :
    AncId cm d s := by
  unfold isAncestor at h
  obtain ⟨s2, hs2, hmem⟩ := (ancestorWalk_iff_chain cm (chunkKeyId a) 5 d).mp h
  rw [hs] at hs2
  rw [Option.some.inj hs2]
  exact chain_sound 5 d s2 hmem

theorem isAncestor_complete {cm : List (String × Chunk)}
    (hdc : depthConsistentB cm = true) {a d : Chunk} {s : String}
    (hkey : chunkKeyId a = some s) (hres : lookupA cm s = some a)
    (hin : InMap cm d) (hanc : AncId cm d s) : isAncestor cm a d = true := by
  unfold isAncestor
  rw [ancestorWalk_iff_chain]
  exact ⟨s, hkey, chain_complete hdc hanc hres hin 5 (getDepth_le_five d)⟩

theorem isAncestor_depth_lt {cm : List (String × Chunk)}
    (hdc : depthConsistentB cm = true) {a d : Chunk}
    (hra : registeredB cm a = true) (hind : InMap cm d)
    (h : isAncestor cm a d = true) : getDepth a < getDepth d := by
  obtain ⟨s, hk, hl⟩ := registered_spec hra
  exact ancId_depth_lt hdc (isAncestor_anc hk h) hind hl

theorem overlap_comm (cm : List (String × Chunk)) (c1 c2 : Chunk) :
    checkHierarchyOverlap cm c1 c2 = checkHierarchyOverlap cm c2 c1 := by
  unfold checkHierarchyOverlap
  exact Bool.or_comm _ _

theorem isAncestor_comparable {cm : List (String × Chunk)}
    (hdc : depthConsistentB cm = true) {e m c : Chunk}
    (hre : registeredB cm e = true) (hrm : registeredB cm m = true)
    (h1 : isAncestor cm e c = true) (h2 : isAncestor cm m c = true) :
    e = m ∨ checkHierarchyOverlap cm e m = true := by
  obtain ⟨se, hke, hle⟩ := registered_spec hre
  obtain ⟨sm, hkm, hlm⟩ := registered_spec hrm
  obtain ⟨s1, hs1, hmem1⟩ :=
    (ancestorWalk_iff_chain cm (chunkKeyId e) 5 c).mp h1
  obtain ⟨s2, hs2, hmem2⟩ :=
    (ancestorWalk_iff_chain cm (chunkKeyId m) 5 c).mp h2
  rw [hke] at hs1
  rw [hkm] at hs2
  rw [← Option.some.inj hs1] at hmem1
  rw [← Option.some.inj hs2] at hmem2
  rcases chain_mem_rel 5 c se sm hmem1 hmem2 with heq | ⟨cs, hcs, hanc⟩ |
      ⟨ct, hct, hanc⟩
  · rw [heq, hlm] at hle
    exact Or.inl (Option.some.inj hle).symm
  · rw [hle] at hcs
    rw [← Option.some.inj hcs] at hanc
    have : isAncestor cm m e = true :=
      isAncestor_complete hdc hkm hlm ⟨se, hle⟩ hanc
    refine Or.inr ?_
    unfold checkHierarchyOverlap
    rw [this]
    exact Bool.or_true _
  · rw [hlm] at hct
    rw [← Option.some.inj hct] at hanc
    have : isAncestor cm e m = true :=
      isAncestor_complete hdc hke hle ⟨sm, hlm⟩ hanc
    refine Or.inr ?_
    unfold checkHierarchyOverlap
    rw [this]
    exact Bool.true_or _

theorem isAncestor_trans {cm : List (String × Chunk)}
    (hdc : depthConsistentB cm = true) {e c m2 : Chunk}
    (hre : registeredB cm e = true) (hrc : registeredB cm c = true)
    (hinm : InMap cm m2) (h1 : isAncestor cm e c = true)
    (h2 : isAncestor cm c m2 = true) : isAncestor cm e m2 = true := by
  obtain ⟨se, hke, hle⟩ := registered_spec hre
  obtain ⟨sc, hkc, hlc⟩ := registered_spec hrc
  have ha1 : AncId cm c se := isAncestor_anc hke h1
  have ha2 : AncId cm m2 sc := isAncestor_anc hkc h2
  exact isAncestor_complete hdc hke hle hinm (ancId_trans ha2 hlc ha1)

theorem mergeStep_ok {cm : List (String × Chunk)}
    (hdc : depthConsistentB cm = true) {merged : List Chunk} {c : Chunk}
    (hregm : ∀ x ∈ merged, registeredB cm x = true)
    (hregc : registeredB cm c = true)
    (hnd : merged.Nodup) (hcnot : c ∉ merged)
    (hpw : merged.Pairwise (fun a b => checkHierarchyOverlap cm a b = false)) :
    (mergeStep cm merged c).Nodup ∧
    (mergeStep cm merged c).Pairwise
      (fun a b => checkHierarchyOverlap cm a b = false) ∧
    (∀ x ∈ mergeStep cm merged c, x ∈ merged ∨ x = c) := by
  have hsymm : Symmetric (fun a b => checkHierarchyOverlap cm a b = false) :=
    fun a b h => by
      show checkHierarchyOverlap cm b a = false
      rw [overlap_comm]
      exact h
  cases hf : findOverlap cm merged c with
  | none =>
    have hall : ∀ e ∈ merged, checkHierarchyOverlap cm c e = false := by
      intro e he
      have := List.find?_eq_none.mp hf e he
      exact Bool.not_eq_true _ ▸ this
    simp only [mergeStep, hf]
    refine ⟨?_, ?_, ?_⟩
    · exact List.Nodup.append hnd (List.nodup_singleton c)
        (fun x hx hxc => by
          rw [List.mem_singleton] at hxc
          exact hcnot (hxc ▸ hx))
    · rw [List.pairwise_append]
      refine ⟨hpw, List.pairwise_singleton _ _, ?_⟩
      intro x hx y hy
      rw [List.mem_singleton] at hy
      subst hy
      rw [overlap_comm]
      exact hall x hx
    · intro x hx
      rcases List.mem_append.mp hx with h | h
      · exact Or.inl h
      · exact Or.inr (List.mem_singleton.mp h)
  | some e =>
    have hover : checkHierarchyOverlap cm c e = true := List.find?_some hf
    have hemem : e ∈ merged := List.mem_of_find?_eq_some hf
    by_cases hd : getDepth e < getDepth c
    · simp only [mergeStep, hf, if_pos hd]
      have hsub : List.Sublist (merged.erase e) merged :=
        List.erase_sublist e merged
      have hnd2 : (merged.erase e).Nodup := List.Nodup.sublist hsub hnd
      refine ⟨?_, ?_, ?_⟩
      · exact List.Nodup.append hnd2 (List.nodup_singleton c)
          (fun x hx hxc => by
            rw [List.mem_singleton] at hxc
            exact hcnot (hxc ▸ List.mem_of_mem_erase hx))
      · rw [List.pairwise_append]
        refine ⟨List.Pairwise.sublist hsub hpw, List.pairwise_singleton _ _, ?_⟩
        intro x hx y hy
        rw [List.mem_singleton] at hy
        show checkHierarchyOverlap cm x y = false
        rw [hy]
        have hxm : x ∈ merged := List.mem_of_mem_erase hx
        have hxe : x ≠ e := (hnd.mem_erase_iff.mp hx).1
        by_contra hcon
        have hxc : checkHierarchyOverlap cm x c = true := by
          cases hb : checkHierarchyOverlap cm x c
          · exact absurd hb hcon
          · rfl
        obtain ⟨sc, hkc, hlc⟩ := registered_spec hregc
        obtain ⟨se2, hke2, hle2⟩ := registered_spec (hregm e hemem)
        have hinC : InMap cm c := ⟨sc, hlc⟩
        have hinE : InMap cm e := ⟨se2, hle2⟩
        obtain ⟨sx, hkx, hlx⟩ := registered_spec (hregm x hxm)
        have hinX : InMap cm x := ⟨sx, hlx⟩
        have hover2 : isAncestor cm c e = true ∨ isAncestor cm e c = true := by
          have h := hover
          unfold checkHierarchyOverlap at h
          rw [Bool.or_eq_true] at h
          exact h
        have hxc2 : isAncestor cm x c = true ∨ isAncestor cm c x = true := by
          have h := hxc
          unfold checkHierarchyOverlap at h
          rw [Bool.or_eq_true] at h
          exact h
        rcases hover2 with hce | hec
        · have := isAncestor_depth_lt hdc hregc hinE hce
          omega
        · rcases hxc2 with hxcA | hcxA
          · rcases isAncestor_comparable hdc (hregm x hxm) (hregm e hemem)
                hxcA hec with heq | hoverXE
            · exact hxe heq
            · have := hpw.forall hsymm hxm hemem hxe
              rw [this] at hoverXE
              exact Bool.false_ne_true hoverXE
          · have hex : isAncestor cm e x = true :=
              isAncestor_trans hdc (hregm e hemem) hregc hinX hec hcxA
            have hxef : checkHierarchyOverlap cm e x = false := by
              rw [overlap_comm]
              exact hpw.forall hsymm hxm hemem hxe
            unfold checkHierarchyOverlap at hxef
            rw [hex] at hxef
            simp at hxef
      · intro x hx
        rcases List.mem_append.mp hx with h | h
        · exact Or.inl (List.mem_of_mem_erase h)
        · exact Or.inr (List.mem_singleton.mp h)
    · simp only [mergeStep, hf, if_neg hd]
      exact ⟨hnd, hpw, fun x hx => Or.inl hx⟩

theorem mergeLoop_ok {cm : List (String × Chunk)}
    (hdc : depthConsistentB cm = true) (maxChunks : Nat) :
    ∀ (rest merged : List Chunk),
      (∀ x ∈ merged, registeredB cm x = true) →
      (∀ x ∈ rest, registeredB cm x = true) →
      merged.Nodup → rest.Nodup →
      (∀ x ∈ merged, x ∉ rest) →
      merged.Pairwise (fun a b => checkHierarchyOverlap cm a b = false) →
      (mergeLoop cm maxChunks merged rest).Pairwise
        (fun a b => checkHierarchyOverlap cm a b = false) := by
  intro rest
  induction rest with
  | nil =>
    intro merged _ _ _ _ _ hpw
    simpa [mergeLoop] using hpw
  | cons c rest ih =>
    intro merged hregm hregr hndm hndr hdisj hpw
    have hregc : registeredB cm c = true := hregr c (List.mem_cons_self _ _)
    have hcnot : c ∉ merged := fun hc => hdisj c hc (List.mem_cons_self _ _)
    obtain ⟨hnd2, hpw2, hmem2⟩ := mergeStep_ok hdc hregm hregc hndm hcnot hpw
    by_cases hlen : maxChunks ≤ (mergeStep cm merged c).length
    · simp only [mergeLoop, if_pos hlen]
      exact hpw2
    · simp only [mergeLoop, if_neg hlen]
      apply ih (mergeStep cm merged c)
      · intro x hx
        rcases hmem2 x hx with h | rfl
        · exact hregm x h
        · exact hregc
      · intro x hx
        exact hregr x (List.mem_cons_of_mem _ hx)
      · exact hnd2
      · exact List.Nodup.of_cons hndr
      · intro x hx hxr
        rcases hmem2 x hx with h | rfl
        · exact hdisj x h (List.mem_cons_of_mem _ hxr)
        · exact (List.nodup_cons.mp hndr).1 hxr
      · exact hpw2

/-- C2 counterexample: over the chunk map `exMap`, where the point-level
chunk `exP` (depth 5) is the recorded parent of the chapter-level chunks
`exA` and `exB` (depth 1), `merge_chunks_smart [exA, exB, exP]` with
`max_chunks = 3` returns `[exB, exP]` although `exP` is an ancestor of
`exB`: the replace-and-break step swaps `exP` in for `exA` without ever
testing it against the other accepted chunks. -/
theorem c2_counterexample :
    mergeChunksSmart exMap [exA, exB, exP] 3 = [exB, exP] ∧
    checkHierarchyOverlap exMap exP exB = true ∧ exB ≠ exP := by
  refine ⟨?_, ?_, ?_⟩ <;> decide

/-- C2: whenever every parent link recorded in the chunk map goes to a
strictly shallower chunk (`depthConsistentB`), every candidate chunk is
stored in the map under its own key id (`registeredB`) and the candidate
list has no duplicates, the list returned by `merge_chunks_smart` contains
no two chunks such that `check_hierarchy_overlap` holds of them — no
accepted chunk is a hierarchy ancestor of another.  (On arbitrary inputs
the claim fails, see the counterexample.) -/
theorem c2_merge_no_overlap (cm : List (String × Chunk))
    (chunks : List Chunk) (maxChunks : Nat)
    (hdc : depthConsistentB cm = true)
    (hreg : ∀ c ∈ chunks, registeredB cm c = true)
    (hnd : chunks.Nodup) :
    (mergeChunksSmart cm chunks maxChunks).Pairwise
      (fun a b => checkHierarchyOverlap cm a b = false) := by
  cases chunks with
  | nil => simp [mergeChunksSmart]
  | cons c rest =>
    by_cases hr : rest.isEmpty = true
    · simp only [mergeChunksSmart, if_pos hr]
      rw [List.isEmpty_iff] at hr
      subst hr
      exact List.Pairwise.sublist (List.take_sublist _ _)
        (List.pairwise_singleton _ _)
    · simp only [mergeChunksSmart, if_neg hr]
      apply List.Pairwise.sublist (List.take_sublist _ _)
      apply mergeLoop_ok hdc maxChunks rest [c]
      · intro x hx
        rw [List.mem_singleton] at hx
        subst hx
        exact hreg x (List.mem_cons_self _ _)
      · intro x hx
        exact hreg x (List.mem_cons_of_mem _ hx)
      · exact List.nodup_singleton c
      · exact List.Nodup.of_cons hnd
      · intro x hx hxr
        rw [List.mem_singleton] at hx
        subst hx
        exact (List.nodup_cons.mp hnd).1 hxr
      · exact List.pairwise_singleton _ _

theorem cacheAfterLookup_subset (σ : Type) (run : RagRun σ)
    (cs : List (CacheEntry (RagResult σ))) :
    ∀ e ∈ cacheAfterLookup σ run cs, e ∈ cs := by
  intro e he
  unfold cacheAfterLookup at he
  split at he
  · unfold cacheCleanup at he
    exact List.mem_of_mem_filter he
  · exact he

/-- C10: any entry present in the semantic cache after `process_query` that
was not in the cache before the call stores a response whose
`documents_relevant` count is at least one and whose answer is longer than
50 characters; in particular no new cache entry ever stores the canned
`_empty_result` response (whose `documents_relevant` is `0`). -/
theorem c10_cache_write_guard (σ : Type)
    (cs cs' : List (CacheEntry (RagResult σ))) (query : String)
    (run : RagRun σ) (e : CacheEntry (RagResult σ))
    (h : (processQuery σ (some cs) query run).2 = some cs')
    (he : e ∈ cs') (hnew : e ∉ cs) :
    e.response.documents_relevant ≥ 1 ∧ e.response.answer.length > 50 ∧
    ∀ q2 i2, e.response ≠ emptyResult σ q2 i2 := by
  unfold processQuery at h
  simp only [Option.map_some'] at h
  split at h
  · simp only [] at h
    rw [← Option.some.inj h] at he
    exact absurd (cacheAfterLookup_subset σ run cs e he) hnew
  · split at h
    · simp only [] at h
      rw [← Option.some.inj h] at he
      exact absurd (cacheAfterLookup_subset σ run cs e he) hnew
    · split at h
      · simp only [] at h
        rw [← Option.some.inj h] at he
        exact absurd (cacheAfterLookup_subset σ run cs e he) hnew
      · split at h
        · rename_i hmerged hcond
          simp only [] at h
          rw [← Option.some.inj h] at he
          unfold SemanticCache.add at he
          rcases List.mem_append.mp he with hold | hnewe
          · have : e ∈ cacheAfterLookup σ run cs := by
              by_cases hlen : (cacheAfterLookup σ run cs).length ≥ 200
              · rw [if_pos hlen] at hold
                exact List.drop_subset _ _ hold
              · rw [if_neg hlen] at hold
                exact hold
            exact absurd (cacheAfterLookup_subset σ run cs e this) hnew
          · rw [List.mem_singleton] at hnewe
            subst hnewe
            obtain ⟨hm, hlen⟩ := hcond
            have hrel :
                1 ≤ (mergeChunksSmart run.chunkMap run.reranked
                  (contextChunks run.intent)).length := by
              rw [Bool.not_eq_true, List.isEmpty_eq_false_iff_exists_mem] at hm
              obtain ⟨x, hx⟩ := hm
              exact List.length_pos.mpr (List.ne_nil_of_mem hx)
            refine ⟨hrel, hlen, ?_⟩
            intro q2 i2 heq
            have := congrArg RagResult.documents_relevant heq
            simp only [emptyResult] at this
            omega
        · simp only [] at h
          rw [← Option.some.inj h] at he
          exact absurd (cacheAfterLookup_subset σ run cs e he) hnew

theorem c10_cache_write_guard_witness :
    (processQuery String (some []) "q" c10run).2 = some [c10entry] ∧
    c10entry ∈ [c10entry] ∧
    c10entry ∉ ([] : List (CacheEntry (RagResult String))) ∧
    (c10entry.response.documents_relevant ≥ 1 ∧
     c10entry.response.answer.length > 50 ∧
     ∀ q2 i2, c10entry.response ≠ emptyResult String q2 i2) := by
  have h : (processQuery String (some []) "q" c10run).2 = some [c10entry] := by
    rfl
  exact ⟨h, List.mem_singleton.mpr rfl, by simp,
    c10_cache_write_guard String [] [c10entry] "q" c10run c10entry h
      (List.mem_singleton.mpr rfl) (by simp)⟩

theorem c2_merge_no_overlap_witness :
    depthConsistentB exGoodMap = true ∧
    (∀ c ∈ [exD, exM], registeredB exGoodMap c = true) ∧
    ([exD, exM] : List Chunk).Nodup ∧
    (mergeChunksSmart exGoodMap [exD, exM] 3).Pairwise
      (fun a b => checkHierarchyOverlap exGoodMap a b = false) :=
  ⟨by decide, by decide, by decide,
    c2_merge_no_overlap exGoodMap [exD, exM] 3 (by decide) (by decide)
      (by decide)⟩

end TSBot
